import Mathlib

/-!
Verification of the embedlet single-file embedding store
(src/include/embedlet.h) against its specification.

The C code computes over IEEE-754 float32.  Two models are used here:

* An exact-value model: each float is modelled by its exact rational value,
  and the arithmetic of the kernel is modelled exactly.  All concrete inputs
  used with this model are chosen so that every float32 operation the source
  performs on them is exact (powers of two, small integers), hence the model
  agrees bit-for-bit with the source on those inputs.
* A rounding model (`Fp` namespace, further below) of binary32
  round-to-nearest-even arithmetic for the one claim whose truth depends on
  rounding.

Machine sizes (`size_t`) are modelled by `Nat`; the sizes involved never
approach 2^64 so wrap-around is not modelled.
-/

namespace Embedlet

/-- FLT_EPSILON for binary32, i.e. 2^-23, as an exact rational. -/
def fltEps : ℚ := 1 / 2 ^ 23

/-- Model of embedlet_dot_c: `sum = 0; for (i < n) sum += a[i]*b[i]`.
Out-of-range reads (undefined behaviour in C) are modelled as 0. -/
def dotQ (a b : List ℚ) (n : Nat) : ℚ :=
  (List.range n).foldl (fun sum i => sum + a.getD i 0 * b.getD i 0) 0

/-- The sum of squares accumulated inside embedlet_norm_c before sqrtf. -/
def normSqQ (a : List ℚ) (n : Nat) : ℚ :=
  (List.range n).foldl (fun sum i => sum + a.getD i 0 * a.getD i 0) 0

/-- Exact-value model of sqrtf, used only at points where the square root is
exactly representable (perfect-square rationals); elsewhere its value is an
unspecified approximation and no theorem relies on it. -/
def ratSqrt (q : ℚ) : ℚ :=
  if q ≤ 0 then 0 else (Nat.sqrt q.num.toNat : ℚ) / (Nat.sqrt q.den : ℚ)

/-- Model of embedlet_norm_c: sqrtf of the accumulated sum of squares. -/
def normQ (a : List ℚ) (n : Nat) : ℚ := ratSqrt (normSqQ a n)

/-- embedlet_result_t: an (id, score) pair. -/
structure Result where
  id : Nat
  score : ℚ
deriving DecidableEq

/-- calloc zero-initialises result arrays: id 0, score 0. -/
instance : Inhabited Result := ⟨⟨0, 0⟩⟩

/-- Read of heap[i] with the zero-initialised default. -/
def scoreAt (l : List Result) (i : Nat) : ℚ := (l.getD i default).score

/-- The two sequential assignments `tmp = heap[i]; heap[i] = heap[j]; heap[j] = tmp`. -/
def swapL (l : List Result) (i j : Nat) : List Result :=
  (l.set i (l.getD j default)).set j (l.getD i default)

/-- The sift-up loop of embedlet_heap_push_min (parent comparison `<=` breaks). -/
def siftUpMin (l : List Result) (i : Nat) : List Result :=
  if i = 0 then l
  else
    if scoreAt l ((i - 1) / 2) ≤ scoreAt l i then l
    else siftUpMin (swapL l ((i - 1) / 2) i) ((i - 1) / 2)
termination_by i
decreasing_by omega

/-- The child selection of the sift-down loop of embedlet_heap_push_min:
smallest = i, possibly replaced by the left then the right child when in
bounds and strictly smaller. -/
def minChildSel (k : Nat) (l : List Result) (i : Nat) : Nat :=
  let s1 := if 2 * i + 1 < k ∧ scoreAt l (2 * i + 1) < scoreAt l i then 2 * i + 1 else i
  if 2 * i + 2 < k ∧ scoreAt l (2 * i + 2) < scoreAt l s1 then 2 * i + 2 else s1

theorem minChildSel_eq_or_bounds (k : Nat) (l : List Result) (i : Nat) :
    minChildSel k l i = i ∨ (i < minChildSel k l i ∧ minChildSel k l i < k) := by
  unfold minChildSel
  dsimp only
  split <;> split <;> omega

/-- The sift-down loop of embedlet_heap_push_min; `k` is max_size, used as the
child-index bound exactly as in the source. -/
def siftDownMin (k : Nat) (l : List Result) (i : Nat) : List Result :=
  if h : minChildSel k l i = i then l
  else siftDownMin k (swapL l i (minChildSel k l i)) (minChildSel k l i)
termination_by k - i
decreasing_by
  rcases minChildSel_eq_or_bounds k l i with h2 | h2
  · exact absurd h2 h
  · omega

/-- embedlet_heap_push_min: insert-and-sift-up while below capacity, else
replace the root when the new score strictly beats it and sift down. -/
def pushMin (k : Nat) (l : List Result) (x : Result) : List Result :=
  if l.length < k then siftUpMin (l ++ [x]) l.length
  else if scoreAt l 0 < x.score then siftDownMin k (l.set 0 x) 0
  else l

/-- The sift-up loop of embedlet_heap_push_max (parent comparison `>=` breaks). -/
def siftUpMax (l : List Result) (i : Nat) : List Result :=
  if i = 0 then l
  else
    if scoreAt l i ≤ scoreAt l ((i - 1) / 2) then l
    else siftUpMax (swapL l ((i - 1) / 2) i) ((i - 1) / 2)
termination_by i
decreasing_by omega

/-- The child selection of the sift-down loop of embedlet_heap_push_max:
largest = i, possibly replaced by the left then the right child when in
bounds and strictly larger. -/
def maxChildSel (k : Nat) (l : List Result) (i : Nat) : Nat :=
  let s1 := if 2 * i + 1 < k ∧ scoreAt l i < scoreAt l (2 * i + 1) then 2 * i + 1 else i
  if 2 * i + 2 < k ∧ scoreAt l s1 < scoreAt l (2 * i + 2) then 2 * i + 2 else s1

theorem maxChildSel_eq_or_bounds (k : Nat) (l : List Result) (i : Nat) :
    maxChildSel k l i = i ∨ (i < maxChildSel k l i ∧ maxChildSel k l i < k) := by
  unfold maxChildSel
  dsimp only
  split <;> split <;> omega

/-- The sift-down loop of embedlet_heap_push_max. -/
def siftDownMax (k : Nat) (l : List Result) (i : Nat) : List Result :=
  if h : maxChildSel k l i = i then l
  else siftDownMax k (swapL l i (maxChildSel k l i)) (maxChildSel k l i)
termination_by k - i
decreasing_by
  rcases maxChildSel_eq_or_bounds k l i with h2 | h2
  · exact absurd h2 h
  · omega

/-- embedlet_heap_push_max: insert-and-sift-up while below capacity, else
replace the root when the new score is strictly below it and sift down. -/
def pushMax (k : Nat) (l : List Result) (x : Result) : List Result :=
  if l.length < k then siftUpMax (l ++ [x]) l.length
  else if x.score < scoreAt l 0 then siftDownMax k (l.set 0 x) 0
  else l

/-- embedlet_store_t, success-path state: dims, logical file_size (bytes),
mapped capacity (bytes), and the mapped floats (data is non-NULL iff
capacity > 0; a NULL mapping is modelled by capacity = 0 and data = []). -/
structure EStore where
  dims : Nat
  fileSize : Nat
  capacity : Nat
  data : List ℚ
deriving DecidableEq

/-- embedlet_embedding_size: dims * sizeof(float). -/
def embSize (s : EStore) : Nat := s.dims * 4

/-- embedlet_count: file_size / (dims * sizeof(float)); Nat division already
yields 0 when dims = 0, as the C guard does. -/
def countS (s : EStore) : Nat := s.fileSize / (s.dims * 4)

/-- The dims floats of slot i (reads of unmapped bytes model as 0, matching
ftruncate zero-fill). -/
def slotAt (s : EStore) (i : Nat) : List ℚ :=
  (List.range s.dims).map (fun j => s.data.getD (i * s.dims + j) 0)

/-- embedlet_is_zeroed_ptr on slot i: every float compares equal to 0.0f. -/
def isZeroSlot (s : EStore) (i : Nat) : Bool :=
  (List.range s.dims).all (fun j => s.data.getD (i * s.dims + j) 0 == 0)

/-- memcpy of dims floats into slot i.  The prefix is padded with 0 for
unmapped positions, consistent with ftruncate zero-fill. -/
def writeSlot (s : EStore) (i : Nat) (v : List ℚ) : EStore :=
  { s with data :=
      s.data.takeD (i * s.dims) 0 ++
        (v.takeD s.dims 0 ++ s.data.drop (i * s.dims + s.dims)) }

/-- The capacity-doubling loop of embedlet_ensure_capacity:
`while (new_cap < needed) new_cap *= 2`.  A start of 0 (never passed by the
source) is mapped to 0 to keep the function total. -/
def capLoop (c needed : Nat) : Nat :=
  if c < needed then (if c = 0 then 0 else capLoop (2 * c) needed) else c
termination_by needed - c
decreasing_by omega

/-- embedlet_ensure_capacity: no-op when needed_bytes fits, else double from
`capacity ? capacity * 2 : 4096`, resize the file (which also sets file_size
to the new capacity, as embedlet_file_resize does) and remap.  ftruncate
growth zero-fills the new bytes. -/
def ensureCapacity (s : EStore) (needed : Nat) : EStore :=
  if needed ≤ s.capacity then s
  else
    let nc := capLoop (if s.capacity = 0 then 4096 else 2 * s.capacity) needed
    { s with fileSize := nc, capacity := nc, data := s.data.takeD (nc / 4) 0 }

/-- The reuse scan of embedlet_append: first index i < count whose slot is
all-zero. -/
def firstZero (s : EStore) (cnt : Nat) : Option Nat :=
  (List.range cnt).find? (fun i => isZeroSlot s i)

/-- embedlet_append (success path): choose the target slot (reuse scan only
when the mapping exists, i.e. data non-NULL), grow when appending at count,
then copy and return the id. -/
def appendE (s : EStore) (v : List ℚ) (reuse : Bool) : EStore × Nat :=
  let emb := embSize s
  let cnt := s.fileSize / emb
  let target :=
    if reuse ∧ 0 < s.capacity then
      match firstZero s cnt with
      | some i => i
      | none => cnt
    else cnt
  if target = cnt then
    let nfs := s.fileSize + emb
    let s1 := ensureCapacity s nfs
    let s2 := { s1 with fileSize := nfs }
    (writeSlot s2 target v, target)
  else
    (writeSlot s target v, target)

/-- Error codes from the source header. -/
def EMBEDLET_OK : Int := 0

def EMBEDLET_ERR_INVALID_ID : Int := -2

/-- embedlet_replace: invalid-id when id >= count, else overwrite the slot.
The store is returned unchanged on the error path. -/
def replaceE (s : EStore) (id : Nat) (v : List ℚ) : Int × EStore :=
  if countS s ≤ id then (EMBEDLET_ERR_INVALID_ID, s)
  else (EMBEDLET_OK, writeSlot s id v)

/-- embedlet_delete: invalid-id when id >= count, else memset the slot's
dims * 4 bytes to zero. -/
def deleteE (s : EStore) (id : Nat) : Int × EStore :=
  if countS s ≤ id then (EMBEDLET_ERR_INVALID_ID, s)
  else (EMBEDLET_OK, writeSlot s id (List.replicate s.dims 0))

/-- The tail scan of embedlet_compact: decrement last_nonzero while the slot
below it is all-zero. -/
def lastNonzero (s : EStore) : Nat → Nat
  | 0 => 0
  | m + 1 => if isZeroSlot s m then lastNonzero s m else m + 1

/-- embedlet_compact (success path): truncate the file to k slots when the
tail scan found k < count; truncation drops the mapped bytes beyond the new
size (a 0-byte result leaves the store unmapped). -/
def compactE (s : EStore) : EStore :=
  let cnt := countS s
  if cnt = 0 then s
  else
    let k := lastNonzero s cnt
    if k < cnt then
      { s with fileSize := k * embSize s, capacity := k * embSize s,
               data := s.data.take (k * s.dims) }
    else s

/-- embedlet_open (success path) on an existing file of fileLen bytes whose
mapped floats are contents (an absent/empty file has fileLen = 0): the byte
size is adopted verbatim, and the whole file is mapped when non-empty. -/
def openE (dims : Nat) (fileLen : Nat) (contents : List ℚ) : EStore :=
  { dims := dims, fileSize := fileLen, capacity := fileLen,
    data := if 0 < fileLen then contents else [] }

/-- embedlet_similarity_raw with NULL pointers modelled as none: NULL or
dims == 0 short-circuits to 0.0f before any arithmetic. -/
def similarityRaw (a b : Option (List ℚ)) (dims : Nat) : ℚ :=
  match a, b with
  | some a, some b =>
    if dims = 0 then 0
    else
      let d := dotQ a b dims
      let na := normQ a dims
      let nb := normQ b dims
      if na < fltEps ∨ nb < fltEps then 0 else d / (na * nb)
  | _, _ => 0

/-- embedlet_similarity: NULL store or NULL operand short-circuits to 0.0f,
else defer to similarity_raw at the store's dims. -/
def similarityS (store : Option EStore) (a b : Option (List ℚ)) : ℚ :=
  match store, a, b with
  | some st, some a, some b => similarityRaw (some a) (some b) st.dims
  | _, _, _ => 0

/-- The per-candidate score of the single-threaded scan in embedlet_search:
guard `query_norm > FLT_EPSILON && emb_norm > FLT_EPSILON`. -/
def simST (qn en d : ℚ) : ℚ :=
  if fltEps < qn ∧ fltEps < en then d / (qn * en) else 0

/-- The per-candidate score of embedlet_search_worker:
guard `query_norm > 0.0f && emb_norm > 0.0f`. -/
def simMT (qn en d : ℚ) : ℚ :=
  if 0 < qn ∧ 0 < en then d / (qn * en) else 0

/-- The kernel contract of cosine (embedlet_similarity_raw without the NULL
guards): 0.0 when either norm is below FLT_EPSILON, else dot/(na*nb). -/
def simKernel (na nb d : ℚ) : ℚ :=
  if na < fltEps ∨ nb < fltEps then 0 else d / (na * nb)

/-- dot(query, store->data + i*dims, dims). -/
def candDot (s : EStore) (q : List ℚ) (i : Nat) : ℚ := dotQ q (slotAt s i) s.dims

/-- norm(store->data + i*dims, dims). -/
def candNorm (s : EStore) (i : Nat) : ℚ := normQ (slotAt s i) s.dims

/-- The score the single-threaded scan computes for candidate i. -/
def stScore (s : EStore) (q : List ℚ) (i : Nat) : ℚ :=
  simST (normQ q s.dims) (candNorm s i) (candDot s q i)

/-- The score embedlet_search_worker computes for candidate i. -/
def mtScore (s : EStore) (q : List ℚ) (i : Nat) : ℚ :=
  simMT (normQ q s.dims) (candNorm s i) (candDot s q i)

/-- One iteration of the single-threaded scan of embedlet_search: skip
all-zero slots, compute sim with the FLT_EPSILON guard, push. -/
def stStep (s : EStore) (q : List ℚ) (n : Nat) (msim : Bool)
    (acc : List Result) (i : Nat) : List Result :=
  if isZeroSlot s i then acc
  else
    if msim then pushMin n acc ⟨i, stScore s q i⟩ else pushMax n acc ⟨i, stScore s q i⟩

/-- The single-threaded path of embedlet_search: scan indices 0..count-1 into
one bounded heap of capacity n (the final qsort only permutes this heap, so
the id set is that of the heap). -/
def searchSingleHeap (s : EStore) (q : List ℚ) (n : Nat) (msim : Bool) : List Result :=
  (List.range (countS s)).foldl (stStep s q n msim) []

/-- One iteration of embedlet_search_worker: skip all-zero slots, compute sim
with the `> 0.0f` guard, push into the task-local heap. -/
def mtStep (s : EStore) (q : List ℚ) (n : Nat) (msim : Bool)
    (acc : List Result) (i : Nat) : List Result :=
  if isZeroSlot s i then acc
  else
    if msim then pushMin n acc ⟨i, mtScore s q i⟩ else pushMax n acc ⟨i, mtScore s q i⟩

/-- embedlet_search_worker on the range [start, end): the task-local heap
(local_results up to result_count). -/
def workerHeap (s : EStore) (q : List ℚ) (n : Nat) (msim : Bool)
    (start endIx : Nat) : List Result :=
  (List.range' start (endIx - start)).foldl (mtStep s q n msim) []

/-- Task i's start index: `i*chunk + (i < remainder ? i : remainder)`. -/
def taskStart (total T i : Nat) : Nat := i * (total / T) + min i (total % T)

/-- Task i's end index: `start + chunk + (i < remainder ? 1 : 0)`. -/
def taskEnd (total T i : Nat) : Nat :=
  taskStart total T i + total / T + (if i < total % T then 1 else 0)

/-- The multi-threaded path of embedlet_search with thread count T: the T
partitioned worker scans followed by the merge, which pushes every pair of
every task-local heap (tasks in order, each local heap in array order) into a
fresh bounded heap of capacity n.  As with the single-threaded path the final
qsort only permutes the merged heap. -/
def searchMultiHeap (s : EStore) (q : List ℚ) (n : Nat) (msim : Bool) (T : Nat) :
    List Result :=
  let locals := (List.range T).map (fun t =>
    workerHeap s q n msim (taskStart (countS s) T t) (taskEnd (countS s) T t))
  locals.flatten.foldl
    (fun acc r => if msim then pushMin n acc r else pushMax n acc r) []

/-- The id set returned by the single-threaded search. -/
def searchSingleIds (s : EStore) (q : List ℚ) (n : Nat) (msim : Bool) : Finset Nat :=
  ((searchSingleHeap s q n msim).map Result.id).toFinset

/-- The id set returned by the multi-threaded search. -/
def searchMultiIds (s : EStore) (q : List ℚ) (n : Nat) (msim : Bool) (T : Nat) :
    Finset Nat :=
  ((searchMultiHeap s q n msim T).map Result.id).toFinset

/-- The candidate pairs the single-threaded scan pushes, in scan order. -/
def stCands (s : EStore) (q : List ℚ) : List Result :=
  (List.range (countS s)).filterMap
    (fun i => if isZeroSlot s i then none else some ⟨i, stScore s q i⟩)

/-- The candidate pairs a worker scanning [start, start+len) pushes. -/
def mtCandsRange (s : EStore) (q : List ℚ) (start len : Nat) : List Result :=
  (List.range' start len).filterMap
    (fun i => if isZeroSlot s i then none else some ⟨i, mtScore s q i⟩)

/-- All candidate pairs with the worker's score function. -/
def mtCands (s : EStore) (q : List ℚ) : List Result :=
  (List.range (countS s)).filterMap
    (fun i => if isZeroSlot s i then none else some ⟨i, mtScore s q i⟩)

/-- The zero-based binary min-heap order on scores: every child is at least
its parent. -/
def IsMinHeap (l : List Result) : Prop :=
  ∀ c, 0 < c → c < l.length → scoreAt l ((c - 1) / 2) ≤ scoreAt l c

/-- State of the min sift-up loop: every edge is ordered except possibly the
one into i, and i's children are already at least i's parent. -/
structure SuInvMin (l : List Result) (i : Nat) : Prop where
  bounded : i < l.length
  heap : ∀ c, 0 < c → c < l.length → c ≠ i → scoreAt l ((c - 1) / 2) ≤ scoreAt l c
  below : ∀ c, 0 < c → c < l.length → (c - 1) / 2 = i → scoreAt l ((i - 1) / 2) ≤ scoreAt l c

/-- State of the min sift-down loop: every edge with parent other than i is
ordered, and (when i is not the root) i's children are at least i's parent. -/
structure SdInvMin (k : Nat) (l : List Result) (i : Nat) : Prop where
  len : l.length = k
  bounded : i < k
  heap : ∀ c, 0 < c → c < k → (c - 1) / 2 ≠ i → scoreAt l ((c - 1) / 2) ≤ scoreAt l c
  above : 0 < i → ∀ c, 0 < c → c < k → (c - 1) / 2 = i → scoreAt l ((i - 1) / 2) ≤ scoreAt l c

/-- Invariant of a capacity-k min-heap fed a multiset P of pushes: the kept
list is a heap holding min(k, |P|) of the pushed pairs, and every pushed pair
that was dropped or evicted scores no more than every kept pair. -/
def keepInvMin (k : Nat) (P : Multiset Result) (l : List Result) : Prop :=
  IsMinHeap l ∧ l.length = min k (Multiset.card P) ∧ (↑l : Multiset Result) ≤ P ∧
    ∀ d ∈ P - (↑l : Multiset Result), ∀ s ∈ l, d.score ≤ s.score

/-- Selection property of the most-similar direction: K is min(k, |P|) of the
pushed pairs and dominates everything discarded. -/
def SelMin (k : Nat) (P K : Multiset Result) : Prop :=
  K ≤ P ∧ Multiset.card K = min k (Multiset.card P) ∧
    ∀ d ∈ P - K, ∀ s ∈ K, d.score ≤ s.score

/-- Selection property of the least-similar direction. -/
def SelMax (k : Nat) (P K : Multiset Result) : Prop :=
  K ≤ P ∧ Multiset.card K = min k (Multiset.card P) ∧
    ∀ d ∈ P - K, ∀ s ∈ K, s.score ≤ d.score

/-- Score negation, the duality between the two heap directions. -/
def negR (r : Result) : Result := ⟨r.id, -r.score⟩

/-- Pointwise score negation of a heap. -/
def negL (l : List Result) : List Result := l.map negR

/-- Pairwise distinct scores along a candidate list. -/
def ScoresDistinct (ps : List Result) : Prop :=
  ps.Pairwise (fun a b => a.score ≠ b.score)

/-- Stores reachable through the public operations (success paths) from an
open of a file whose length is a multiple of the slot size (a fresh empty
file being the length-0 case). -/
inductive ReachableM : EStore → Prop where
  | openStep (dims fileLen : Nat) (contents : List ℚ) (hd : 0 < dims)
      (hlen : fileLen % (dims * 4) = 0) : ReachableM (openE dims fileLen contents)
  | appendStep (s : EStore) (v : List ℚ) (reuse : Bool) : ReachableM s →
      ReachableM (appendE s v reuse).1
  | replaceStep (s : EStore) (id : Nat) (v : List ℚ) : ReachableM s →
      ReachableM (replaceE s id v).2
  | deleteStep (s : EStore) (id : Nat) : ReachableM s →
      ReachableM (deleteE s id).2
  | compactStep (s : EStore) : ReachableM s → ReachableM (compactE s)

/-- The new-capacity rule as the spec words it: repeatedly double starting
from max(mapped_capacity, 4096) until the value is at least the requested
bytes.  Stated for comparison with the source's embedlet_ensure_capacity. -/
def specNewCap (cap needed : Nat) : Nat := capLoop (max cap 4096) needed

namespace Fp

/-!
Bit-accurate model of binary32 arithmetic (round to nearest, ties to even)
on the normal range, each float represented by its exact rational value.
Subnormal and overflow handling is omitted: every value manipulated by the
theorems below lies well inside the normal range.
-/

/-- Round a positive rational to the nearest binary32 value (ties to even). -/
def rndPos (q : ℚ) : ℚ :=
  let e : ℤ := Int.log 2 q - 23
  let m : ℚ := q / 2 ^ e
  let n : ℤ := ⌊m⌋
  let r : ℚ := m - n
  let n2 : ℤ :=
    if r < 1 / 2 then n
    else if 1 / 2 < r then n + 1
    else if n % 2 = 0 then n else n + 1
  (n2 : ℚ) * 2 ^ e

/-- Round a rational to the nearest binary32 value. -/
def rnd (q : ℚ) : ℚ :=
  if q = 0 then 0 else if q < 0 then -rndPos (-q) else rndPos q

/-- float32 addition. -/
def fadd (x y : ℚ) : ℚ := rnd (x + y)

/-- float32 multiplication. -/
def fmul (x y : ℚ) : ℚ := rnd (x * y)

/-- float32 division. -/
def fdiv (x y : ℚ) : ℚ := rnd (x / y)

/-- sqrtf: the correctly rounded square root, computed by integer square root
on the scaled operand (negative operands, NaN in C, are collapsed to 0; no
theorem evaluates the model there). -/
def fsqrt (x : ℚ) : ℚ :=
  if x ≤ 0 then 0
  else
    let e : ℤ := Int.fdiv (Int.log 2 x) 2 - 23
    let y : ℚ := x / 2 ^ (2 * e)
    let n : ℕ := Nat.sqrt ⌊y⌋.toNat
    let n2 : ℕ :=
      if y < ((n : ℚ) + 1 / 2) ^ 2 then n
      else if ((n : ℚ) + 1 / 2) ^ 2 < y then n + 1
      else if n % 2 = 0 then n else n + 1
    (n2 : ℚ) * 2 ^ e

/-- embedlet_dot_c under binary32 arithmetic. -/
def dotF (a b : List ℚ) (n : Nat) : ℚ :=
  (List.range n).foldl (fun sum i => fadd sum (fmul (a.getD i 0) (b.getD i 0))) 0

/-- The accumulation inside embedlet_norm_c under binary32 arithmetic. -/
def normSqF (a : List ℚ) (n : Nat) : ℚ :=
  (List.range n).foldl (fun sum i => fadd sum (fmul (a.getD i 0) (a.getD i 0))) 0

/-- embedlet_norm_c under binary32 arithmetic. -/
def normF (a : List ℚ) (n : Nat) : ℚ := fsqrt (normSqF a n)

/-- embedlet_similarity_raw (non-NULL path) under binary32 arithmetic:
`dot / (na * nb)` with the FLT_EPSILON guard and no clamping. -/
def similarityRawF (a b : List ℚ) (dims : Nat) : ℚ :=
  if dims = 0 then 0
  else
    let d := dotF a b dims
    let na := normF a dims
    let nb := normF b dims
    if na < fltEps ∨ nb < fltEps then 0 else fdiv d (fmul na nb)

end Fp

/-! ## Generic list helpers -/

theorem getD_takeD_of_lt (l : List ℚ) (n m : Nat) (h : m < n) :
    (List.takeD n l 0).getD m 0 = l.getD m 0 := by
  induction n generalizing l m with
  | zero => omega
  | succ n ih =>
    rw [List.takeD_succ]
    cases m with
    | zero =>
      cases l <;> simp [List.getD]
    | succ m =>
      cases l with
      | nil =>
        simp only [List.head?_nil, Option.getD_none, List.tail_nil]
        rw [List.getD_cons_succ, ih _ _ (by omega)]
        simp [List.getD]
      | cons a t =>
        simp only [List.head?_cons, Option.getD_some, List.tail_cons]
        rw [List.getD_cons_succ, List.getD_cons_succ, ih _ _ (by omega)]

theorem getD_drop (l : List ℚ) (n m : Nat) :
    (List.drop n l).getD m 0 = l.getD (n + m) 0 := by
  rw [List.getD_eq_getElem?_getD, List.getD_eq_getElem?_getD, List.getElem?_drop]

theorem getD_append_lt (l l' : List ℚ) (m : Nat) (h : m < l.length) :
    (l ++ l').getD m 0 = l.getD m 0 :=
  List.getD_append l l' 0 m h

/-! ## Slot-level description of writeSlot -/

theorem writeSlot_dims (s : EStore) (i : Nat) (v : List ℚ) :
    (writeSlot s i v).dims = s.dims := rfl

theorem writeSlot_fileSize (s : EStore) (i : Nat) (v : List ℚ) :
    (writeSlot s i v).fileSize = s.fileSize := rfl

theorem writeSlot_capacity (s : EStore) (i : Nat) (v : List ℚ) :
    (writeSlot s i v).capacity = s.capacity := rfl

theorem countS_writeSlot (s : EStore) (i : Nat) (v : List ℚ) :
    countS (writeSlot s i v) = countS s := rfl

/-- Reading inside the written slot yields the written vector (padded). -/
theorem getD_writeSlot_self (s : EStore) (i : Nat) (v : List ℚ) (r : Nat)
    (hr : r < s.dims) :
    (writeSlot s i v).data.getD (i * s.dims + r) 0 = (v.takeD s.dims 0).getD r 0 := by
  unfold writeSlot
  dsimp only
  rw [List.getD_append_right]
  · rw [List.takeD_length, getD_append_lt]
    · congr 1
      omega
    · rw [List.takeD_length]
      omega
  · rw [List.takeD_length]
    omega

/-- Reading any position outside the written slot is unchanged. -/
theorem getD_writeSlot_other (s : EStore) (i : Nat) (v : List ℚ) (p : Nat)
    (hp : p < i * s.dims ∨ i * s.dims + s.dims ≤ p) :
    (writeSlot s i v).data.getD p 0 = s.data.getD p 0 := by
  unfold writeSlot
  dsimp only
  rcases hp with hp | hp
  · rw [getD_append_lt _ _ _ (by rw [List.takeD_length]; omega)]
    exact getD_takeD_of_lt _ _ _ hp
  · rw [List.getD_append_right _ _ _ _ (by rw [List.takeD_length]; omega)]
    rw [List.takeD_length]
    rw [List.getD_append_right _ _ _ _ (by rw [List.takeD_length]; omega)]
    rw [List.takeD_length, getD_drop]
    congr 1
    omega

theorem slotAt_writeSlot_self (s : EStore) (i : Nat) (v : List ℚ)
    (hv : v.length = s.dims) : slotAt (writeSlot s i v) i = v := by
  unfold slotAt
  rw [writeSlot_dims]
  have hvt : v.takeD s.dims 0 = v := by
    rw [← hv, List.takeD_eq_take _ (le_refl _), List.take_length]
  have : ∀ j < s.dims, (writeSlot s i v).data.getD (i * s.dims + j) 0 = v.getD j 0 := by
    intro j hj
    rw [getD_writeSlot_self s i v j hj, hvt]
  apply List.ext_getElem
  · simp [hv]
  · intro j h1 h2
    have hj : j < s.dims := by simpa using h1
    simp only [List.getElem_map, List.getElem_range]
    rw [this j hj, List.getD_eq_getElem?_getD, List.getElem?_eq_getElem h2]
    rfl

theorem slotAt_writeSlot_other (s : EStore) (i j : Nat) (v : List ℚ)
    (hij : j ≠ i) : slotAt (writeSlot s i v) j = slotAt s j := by
  unfold slotAt
  rw [writeSlot_dims]
  apply List.map_congr_left
  intro r hr
  have hrd : r < s.dims := by simpa using hr
  apply getD_writeSlot_other
  rcases Nat.lt_or_ge j i with h | h
  · left
    calc j * s.dims + r < (j + 1) * s.dims := by nlinarith
    _ ≤ i * s.dims := Nat.mul_le_mul_right _ (by omega)
  · right
    have : i + 1 ≤ j := by omega
    calc i * s.dims + s.dims = (i + 1) * s.dims := by ring
    _ ≤ j * s.dims := Nat.mul_le_mul_right _ this
    _ ≤ j * s.dims + r := Nat.le_add_right _ _

/-- isZeroSlot in terms of slot reads. -/
theorem isZeroSlot_iff (s : EStore) (i : Nat) :
    isZeroSlot s i = true ↔ ∀ j < s.dims, s.data.getD (i * s.dims + j) 0 = 0 := by
  unfold isZeroSlot
  rw [List.all_eq_true]
  constructor
  · intro h j hj
    have := h j (by simpa using hj)
    simpa using this
  · intro h x hx
    have hxd : x < s.dims := by simpa using hx
    simpa using h x hxd

/-! ## Claim C10: NULL and dims-0 absorption in the similarity entry points -/

/-- C10: embedlet_similarity_raw returns exactly 0.0 when a is NULL, b is
NULL, or dims == 0, and embedlet_similarity returns exactly 0.0 when the
store, a, or b is NULL: these degenerate calls are absorbed silently as the
value 0 rather than reported through an error code. -/
theorem C10_null_and_zero_dims_absorbed :
    (∀ (a b : Option (List ℚ)) (dims : Nat),
      a = none ∨ b = none ∨ dims = 0 → similarityRaw a b dims = 0) ∧
    (∀ (st : Option EStore) (a b : Option (List ℚ)),
      st = none ∨ a = none ∨ b = none → similarityS st a b = 0) := by
  constructor
  · intro a b dims h
    rcases h with h | h | h
    · subst h
      rfl
    · subst h
      cases a <;> rfl
    · subst h
      cases a <;> cases b <;> simp [similarityRaw]
  · intro st a b h
    rcases h with h | h | h
    · subst h
      rfl
    · subst h
      cases st <;> rfl
    · subst h
      cases st <;> cases a <;> rfl

/-- Witness for C10 at concrete degenerate inputs. -/
theorem C10_null_and_zero_dims_absorbed_witness :
    similarityRaw (some [1, 2]) (some [3, 4]) 0 = 0 ∧
      similarityS none (some [1]) (some [1]) = 0 := by
  constructor
  · exact C10_null_and_zero_dims_absorbed.1 (some [1, 2]) (some [3, 4]) 0 (Or.inr (Or.inr rfl))
  · exact C10_null_and_zero_dims_absorbed.2 none (some [1]) (some [1]) (Or.inl rfl)

/-! ## Claim C8: replace and delete error behaviour -/

/-- C8: replace(id, data) and delete(id) return the invalid-id error exactly
when id >= count; on that error the store (file_size, count, and every
slot's bytes) is unchanged, and on success delete zeroes exactly the D*4
bytes of slot id, leaving count and every other slot unchanged. -/
theorem C8_replace_delete_invalid_id (s : EStore) (id : Nat) (v : List ℚ)
    (hd : 0 < s.dims) :
    ((replaceE s id v).1 = EMBEDLET_ERR_INVALID_ID ↔ countS s ≤ id) ∧
    ((deleteE s id).1 = EMBEDLET_ERR_INVALID_ID ↔ countS s ≤ id) ∧
    (countS s ≤ id → (replaceE s id v).2 = s ∧ (deleteE s id).2 = s) ∧
    (id < countS s →
      slotAt (deleteE s id).2 id = List.replicate s.dims 0 ∧
      (∀ j, j ≠ id → slotAt (deleteE s id).2 j = slotAt s j) ∧
      countS (deleteE s id).2 = countS s ∧
      (deleteE s id).2.fileSize = s.fileSize) := by
  refine ⟨?_, ?_, ?_, ?_⟩
  · unfold replaceE
    split
    · simpa [EMBEDLET_ERR_INVALID_ID]
    · simp only [EMBEDLET_OK, EMBEDLET_ERR_INVALID_ID]
      omega
  · unfold deleteE
    split
    · simpa [EMBEDLET_ERR_INVALID_ID]
    · simp only [EMBEDLET_OK, EMBEDLET_ERR_INVALID_ID]
      omega
  · intro h
    constructor
    · unfold replaceE
      split
      · rfl
      · omega
    · unfold deleteE
      split
      · rfl
      · omega
  · intro h
    have hsplit : (deleteE s id).2 = writeSlot s id (List.replicate s.dims 0) := by
      unfold deleteE
      split
      · omega
      · rfl
    refine ⟨?_, ?_, ?_, ?_⟩
    · rw [hsplit]
      exact slotAt_writeSlot_self _ _ _ (by simp)
    · intro j hj
      rw [hsplit]
      exact slotAt_writeSlot_other _ _ _ _ hj
    · rw [hsplit]
      rfl
    · rw [hsplit]
      rfl

/-- Witness for C8 on a concrete two-slot store on both sides of the bound. -/
theorem C8_replace_delete_invalid_id_witness :
    ((replaceE ⟨1, 8, 8, [5, 7]⟩ 2 [9]).1 = EMBEDLET_ERR_INVALID_ID ↔
      countS ⟨1, 8, 8, [5, 7]⟩ ≤ 2) ∧
    ((deleteE ⟨1, 8, 8, [5, 7]⟩ 2).1 = EMBEDLET_ERR_INVALID_ID ↔
      countS ⟨1, 8, 8, [5, 7]⟩ ≤ 2) ∧
    (countS ⟨1, 8, 8, [5, 7]⟩ ≤ 2 →
      (replaceE ⟨1, 8, 8, [5, 7]⟩ 2 [9]).2 = ⟨1, 8, 8, [5, 7]⟩ ∧
      (deleteE ⟨1, 8, 8, [5, 7]⟩ 2).2 = ⟨1, 8, 8, [5, 7]⟩) ∧
    (2 < countS ⟨1, 8, 8, [5, 7]⟩ →
      slotAt (deleteE ⟨1, 8, 8, [5, 7]⟩ 2).2 2 = List.replicate 1 0 ∧
      (∀ j, j ≠ 2 → slotAt (deleteE ⟨1, 8, 8, [5, 7]⟩ 2).2 j = slotAt ⟨1, 8, 8, [5, 7]⟩ j) ∧
      countS (deleteE ⟨1, 8, 8, [5, 7]⟩ 2).2 = countS ⟨1, 8, 8, [5, 7]⟩ ∧
      (deleteE ⟨1, 8, 8, [5, 7]⟩ 2).2.fileSize = (⟨1, 8, 8, [5, 7]⟩ : EStore).fileSize) :=
  C8_replace_delete_invalid_id ⟨1, 8, 8, [5, 7]⟩ 2 [9] (by norm_num)

/-! ## Preservation lemmas for the store operations -/

theorem ensureCapacity_dims (s : EStore) (n : Nat) :
    (ensureCapacity s n).dims = s.dims := by
  unfold ensureCapacity
  split <;> rfl

theorem appendE_dims (s : EStore) (v : List ℚ) (r : Bool) :
    (appendE s v r).1.dims = s.dims := by
  unfold appendE
  dsimp only
  split <;> split <;> rw [writeSlot_dims] <;>
    first
      | exact ensureCapacity_dims s _
      | rfl

theorem appendE_fileSize (s : EStore) (v : List ℚ) (r : Bool) :
    (appendE s v r).1.fileSize = s.fileSize ∨
      (appendE s v r).1.fileSize = s.fileSize + s.dims * 4 := by
  unfold appendE
  dsimp only
  split <;> split <;> rw [writeSlot_fileSize] <;>
    first
      | (right; rfl)
      | (left; rfl)

theorem replaceE_dims (s : EStore) (id : Nat) (v : List ℚ) :
    (replaceE s id v).2.dims = s.dims := by
  unfold replaceE
  split
  · rfl
  · rw [writeSlot_dims]

theorem replaceE_fileSize (s : EStore) (id : Nat) (v : List ℚ) :
    (replaceE s id v).2.fileSize = s.fileSize := by
  unfold replaceE
  split
  · rfl
  · rw [writeSlot_fileSize]

theorem deleteE_dims (s : EStore) (id : Nat) :
    (deleteE s id).2.dims = s.dims := by
  unfold deleteE
  split
  · rfl
  · rw [writeSlot_dims]

theorem deleteE_fileSize (s : EStore) (id : Nat) :
    (deleteE s id).2.fileSize = s.fileSize := by
  unfold deleteE
  split
  · rfl
  · rw [writeSlot_fileSize]

theorem compactE_dims (s : EStore) : (compactE s).dims = s.dims := by
  unfold compactE
  dsimp only
  split
  · rfl
  · split <;> rfl

theorem compactE_fileSize (s : EStore) :
    (compactE s).fileSize = s.fileSize ∨
      ∃ k, (compactE s).fileSize = k * (s.dims * 4) := by
  unfold compactE
  dsimp only
  split
  · left
    rfl
  · split
    · right
      exact ⟨lastNonzero s (countS s), rfl⟩
    · left
      rfl

/-! ## Claim C2: the size invariant -/

/-- C2 (amended): for every store reachable through the public operations
from an open of a file whose byte length is a multiple of D*4 (a fresh empty
file in particular), file_size remains an exact multiple of D*4 and hence
count * D * 4 == file_size, where count is the integer division
file_size / (D*4) that embedlet_count performs. -/
theorem C2_size_invariant (s : EStore) (h : ReachableM s) :
    s.fileSize % (s.dims * 4) = 0 ∧ countS s * (s.dims * 4) = s.fileSize := by
  have main : 0 < s.dims ∧ s.fileSize % (s.dims * 4) = 0 := by
    induction h with
    | openStep dims fileLen contents hd hlen => exact ⟨hd, hlen⟩
    | appendStep s v reuse _ ih =>
      refine ⟨by rw [appendE_dims]; exact ih.1, ?_⟩
      rcases appendE_fileSize s v reuse with hf | hf <;>
        rw [appendE_dims, hf]
      · exact ih.2
      · rw [Nat.add_mod_right]
        exact ih.2
    | replaceStep s id v _ ih =>
      exact ⟨by rw [replaceE_dims]; exact ih.1, by rw [replaceE_dims, replaceE_fileSize]; exact ih.2⟩
    | deleteStep s id _ ih =>
      exact ⟨by rw [deleteE_dims]; exact ih.1, by rw [deleteE_dims, deleteE_fileSize]; exact ih.2⟩
    | compactStep s _ ih =>
      refine ⟨by rw [compactE_dims]; exact ih.1, ?_⟩
      rcases compactE_fileSize s with hf | ⟨k, hf⟩ <;> rw [compactE_dims, hf]
      · exact ih.2
      · exact Nat.mul_mod_left k _
  refine ⟨main.2, ?_⟩
  unfold countS
  exact Nat.div_mul_cancel (Nat.dvd_of_mod_eq_zero main.2)

/-- Witness for C2: a store reached by opening a fresh (0-byte) file with
D = 1 and appending one vector. -/
theorem C2_size_invariant_witness :
    (appendE (openE 1 0 []) [5] false).1.fileSize % ((appendE (openE 1 0 []) [5] false).1.dims * 4) = 0 ∧
      countS (appendE (openE 1 0 []) [5] false).1 *
        ((appendE (openE 1 0 []) [5] false).1.dims * 4) =
        (appendE (openE 1 0 []) [5] false).1.fileSize :=
  C2_size_invariant (appendE (openE 1 0 []) [5] false).1
    (ReachableM.appendStep (openE 1 0 []) [5] false
      (ReachableM.openStep 1 0 [] (by norm_num) (by norm_num)))

/-- C2 as stated fails on a store obtained by opening an existing file of
arbitrary byte length: a 5-byte file opened with D = 1 has count = 1 but
count * D * 4 = 4, not 5 (the source silently floor-divides). -/
theorem C2_counterexample :
    ¬ (countS (openE 1 5 []) * (openE 1 5 []).dims * 4 = (openE 1 5 []).fileSize) := by
  decide

/-! ## Claim C5: compact -/

theorem lastNonzero_succ (s : EStore) (m : Nat) :
    lastNonzero s (m + 1) = if isZeroSlot s m then lastNonzero s m else m + 1 := rfl

theorem lastNonzero_succ_zero (s : EStore) (m : Nat) (h : isZeroSlot s m = true) :
    lastNonzero s (m + 1) = lastNonzero s m := by
  rw [lastNonzero_succ]
  simp [h]

theorem lastNonzero_succ_nonzero (s : EStore) (m : Nat) (h : isZeroSlot s m = false) :
    lastNonzero s (m + 1) = m + 1 := by
  rw [lastNonzero_succ]
  simp [h]

theorem lastNonzero_le (s : EStore) (m : Nat) : lastNonzero s m ≤ m := by
  induction m with
  | zero => simp [lastNonzero]
  | succ m ih =>
    by_cases h : isZeroSlot s m = true
    · rw [lastNonzero_succ_zero s m h]
      omega
    · rw [lastNonzero_succ_nonzero s m (by simpa using h)]

theorem lastNonzero_nonzero (s : EStore) (m : Nat) (h : 0 < lastNonzero s m) :
    isZeroSlot s (lastNonzero s m - 1) = false := by
  induction m with
  | zero => simp [lastNonzero] at h
  | succ m ih =>
    by_cases hz : isZeroSlot s m = true
    · rw [lastNonzero_succ_zero s m hz] at h ⊢
      exact ih h
    · rw [lastNonzero_succ_nonzero s m (by simpa using hz)]
      simpa using hz

theorem lastNonzero_tail_zero (s : EStore) (m : Nat) :
    ∀ j, lastNonzero s m ≤ j → j < m → isZeroSlot s j = true := by
  induction m with
  | zero => omega
  | succ m ih =>
    intro j h1 h2
    by_cases hz : isZeroSlot s m = true
    · rw [lastNonzero_succ_zero s m hz] at h1
      rcases Nat.lt_or_ge j m with hj | hj
      · exact ih j h1 hj
      · have : j = m := by omega
        rw [this]
        exact hz
    · rw [lastNonzero_succ_nonzero s m (by simpa using hz)] at h1
      omega

theorem getD_take_lt (l : List ℚ) (n m : Nat) (h : m < n) :
    (l.take n).getD m 0 = l.getD m 0 := by
  rw [List.getD_eq_getElem?_getD, List.getD_eq_getElem?_getD, List.getElem?_take]
  simp [h]

/-- Unfolding of compactE into its three cases. -/
theorem compactE_cases (s : EStore) :
    compactE s =
      if countS s = 0 then s
      else if lastNonzero s (countS s) < countS s then
        { s with fileSize := lastNonzero s (countS s) * embSize s,
                 capacity := lastNonzero s (countS s) * embSize s,
                 data := s.data.take (lastNonzero s (countS s) * s.dims) }
      else s := rfl

/-- Slot reads agree between stores with equal dims whose data agree at every
position inside the slot. -/
theorem isZeroSlot_congr (s t : EStore) (hd : t.dims = s.dims) (i : Nat)
    (h : ∀ p, p < (i + 1) * s.dims → t.data.getD p 0 = s.data.getD p 0) :
    isZeroSlot t i = isZeroSlot s i := by
  rw [Bool.eq_iff_iff, isZeroSlot_iff, isZeroSlot_iff, hd]
  constructor
  · intro hz j hj
    rw [← h (i * s.dims + j) (by nlinarith)]
    exact hz j hj
  · intro hz j hj
    rw [h (i * s.dims + j) (by nlinarith)]
    exact hz j hj

theorem slotAt_congr (s t : EStore) (hd : t.dims = s.dims) (i : Nat)
    (h : ∀ p, p < (i + 1) * s.dims → t.data.getD p 0 = s.data.getD p 0) :
    slotAt t i = slotAt s i := by
  unfold slotAt
  rw [hd]
  apply List.map_congr_left
  intro j hj
  have hjd : j < s.dims := by simpa using hj
  exact h (i * s.dims + j) (by nlinarith)

theorem countS_compactE (s : EStore) (hd : 0 < s.dims) :
    countS (compactE s) = lastNonzero s (countS s) := by
  rw [compactE_cases]
  by_cases h0 : countS s = 0
  · simp only [h0, if_true]
    simp [lastNonzero]
  · simp only [h0, if_false]
    by_cases h1 : lastNonzero s (countS s) < countS s
    · simp only [h1, if_true]
      show lastNonzero s (countS s) * embSize s / (s.dims * 4) = _
      unfold embSize
      exact Nat.mul_div_cancel _ (by omega)
    · simp only [h1, if_false]
      have := lastNonzero_le s (countS s)
      omega

theorem isZeroSlot_compactE_of_lt (s : EStore) (i : Nat)
    (hi : i < lastNonzero s (countS s)) :
    isZeroSlot (compactE s) i = isZeroSlot s i := by
  rw [compactE_cases]
  by_cases h0 : countS s = 0
  · simp [h0]
  · simp only [h0, if_false]
    by_cases h1 : lastNonzero s (countS s) < countS s
    · simp only [h1, if_true]
      apply isZeroSlot_congr
      · rfl
      · intro p hp
        show (s.data.take (lastNonzero s (countS s) * s.dims)).getD p 0 = _
        apply getD_take_lt
        nlinarith
    · simp [h1]

theorem slotAt_compactE_of_lt (s : EStore) (i : Nat)
    (hi : i < lastNonzero s (countS s)) :
    slotAt (compactE s) i = slotAt s i := by
  rw [compactE_cases]
  by_cases h0 : countS s = 0
  · simp [h0]
  · simp only [h0, if_false]
    by_cases h1 : lastNonzero s (countS s) < countS s
    · simp only [h1, if_true]
      apply slotAt_congr
      · rfl
      · intro p hp
        show (s.data.take (lastNonzero s (countS s) * s.dims)).getD p 0 = _
        apply getD_take_lt
        nlinarith
    · simp [h1]

/-- C5: compact sets the new count to the largest k <= count whose slot k-1
is non-zero (0 when all slots are zero), keeps the bytes of slots 0..k-1
(interior all-zero slots included), never increases count, and running it
again changes nothing. -/
theorem C5_compact_trailing_truncation (s : EStore) (hd : 0 < s.dims) :
    countS (compactE s) = lastNonzero s (countS s) ∧
    lastNonzero s (countS s) ≤ countS s ∧
    (0 < lastNonzero s (countS s) →
      isZeroSlot s (lastNonzero s (countS s) - 1) = false) ∧
    (∀ j, lastNonzero s (countS s) ≤ j → j < countS s → isZeroSlot s j = true) ∧
    (∀ i, i < lastNonzero s (countS s) → slotAt (compactE s) i = slotAt s i) ∧
    compactE (compactE s) = compactE s := by
  refine ⟨countS_compactE s hd, lastNonzero_le s _, lastNonzero_nonzero s _,
    lastNonzero_tail_zero s _, slotAt_compactE_of_lt s, ?_⟩
  by_cases h0 : countS s = 0
  · have hcs : compactE s = s := by
      rw [compactE_cases]
      simp [h0]
    rw [hcs, hcs]
  · by_cases h1 : lastNonzero s (countS s) < countS s
    · have hcount : countS (compactE s) = lastNonzero s (countS s) := countS_compactE s hd
      by_cases hk : lastNonzero s (countS s) = 0
      · conv_lhs => rw [compactE_cases]
        rw [hcount, hk]
        simp
      · have hk1 : 0 < lastNonzero s (countS s) := by omega
        obtain ⟨m, hm⟩ : ∃ m, lastNonzero s (countS s) = m + 1 :=
          ⟨lastNonzero s (countS s) - 1, by omega⟩
        have hzm : isZeroSlot (compactE s) m = false := by
          rw [isZeroSlot_compactE_of_lt s m (by omega)]
          have := lastNonzero_nonzero s (countS s) hk1
          rwa [hm, Nat.add_sub_cancel] at this
        have hlast : lastNonzero (compactE s) (countS (compactE s)) =
            lastNonzero s (countS s) := by
          rw [hcount, hm]
          exact lastNonzero_succ_nonzero (compactE s) m hzm
        conv_lhs => rw [compactE_cases]
        rw [hlast, hcount]
        simp [hk, lt_irrefl]
    · have hcs : compactE s = s := by
        rw [compactE_cases]
        simp [h0, h1]
      rw [hcs, hcs]

/-- Witness for C5 on a concrete store: D = 1, slots [5, 0, 7, 0, 0]; the
tail scan stops at slot 2, so compact keeps 3 slots including the interior
zero at index 1. -/
theorem C5_compact_trailing_truncation_witness :
    countS (compactE ⟨1, 20, 20, [5, 0, 7, 0, 0]⟩) =
      lastNonzero ⟨1, 20, 20, [5, 0, 7, 0, 0]⟩ (countS ⟨1, 20, 20, [5, 0, 7, 0, 0]⟩) ∧
    lastNonzero ⟨1, 20, 20, [5, 0, 7, 0, 0]⟩ (countS ⟨1, 20, 20, [5, 0, 7, 0, 0]⟩) ≤
      countS ⟨1, 20, 20, [5, 0, 7, 0, 0]⟩ ∧
    (0 < lastNonzero ⟨1, 20, 20, [5, 0, 7, 0, 0]⟩ (countS ⟨1, 20, 20, [5, 0, 7, 0, 0]⟩) →
      isZeroSlot ⟨1, 20, 20, [5, 0, 7, 0, 0]⟩
        (lastNonzero ⟨1, 20, 20, [5, 0, 7, 0, 0]⟩ (countS ⟨1, 20, 20, [5, 0, 7, 0, 0]⟩) - 1) =
        false) ∧
    (∀ j, lastNonzero ⟨1, 20, 20, [5, 0, 7, 0, 0]⟩ (countS ⟨1, 20, 20, [5, 0, 7, 0, 0]⟩) ≤ j →
      j < countS ⟨1, 20, 20, [5, 0, 7, 0, 0]⟩ →
      isZeroSlot ⟨1, 20, 20, [5, 0, 7, 0, 0]⟩ j = true) ∧
    (∀ i, i < lastNonzero ⟨1, 20, 20, [5, 0, 7, 0, 0]⟩ (countS ⟨1, 20, 20, [5, 0, 7, 0, 0]⟩) →
      slotAt (compactE ⟨1, 20, 20, [5, 0, 7, 0, 0]⟩) i = slotAt ⟨1, 20, 20, [5, 0, 7, 0, 0]⟩ i) ∧
    compactE (compactE ⟨1, 20, 20, [5, 0, 7, 0, 0]⟩) = compactE ⟨1, 20, 20, [5, 0, 7, 0, 0]⟩ :=
  C5_compact_trailing_truncation ⟨1, 20, 20, [5, 0, 7, 0, 0]⟩ (by norm_num)

/-! ## Claim C4: append with slot reuse -/

theorem find?_range'_eq_some (p : Nat → Bool) :
    ∀ (len st i : Nat), (List.range' st len).find? p = some i ↔
      (st ≤ i ∧ i < st + len ∧ p i = true ∧ ∀ j, st ≤ j → j < i → p j = false) := by
  intro len
  induction len with
  | zero =>
    intro st i
    simp only [List.range'_zero, List.find?_nil]
    constructor
    · intro h
      cases h
    · intro h
      omega
  | succ len ih =>
    intro st i
    rw [List.range'_succ]
    by_cases hst : p st = true
    · rw [List.find?_cons_of_pos _ hst]
      constructor
      · intro h
        have : st = i := by
          injection h with h
        subst this
        exact ⟨le_refl _, by omega, hst, fun j h1 h2 => by omega⟩
      · intro ⟨h1, h2, h3, h4⟩
        congr
        by_contra hne
        have : st < i := by omega
        have := h4 st (le_refl _) this
        rw [hst] at this
        cases this
    · rw [List.find?_cons_of_neg _ hst]
      rw [ih (st + 1) i]
      constructor
      · intro ⟨h1, h2, h3, h4⟩
        refine ⟨by omega, by omega, h3, ?_⟩
        intro j hj1 hj2
        rcases Nat.eq_or_lt_of_le hj1 with he | hl
        · rw [← he]
          simpa using hst
        · exact h4 j hl hj2
      · intro ⟨h1, h2, h3, h4⟩
        have hne : st ≠ i := by
          intro he
          rw [he] at hst
          exact hst h3
        exact ⟨by omega, by omega, h3, fun j hj1 hj2 => h4 j (by omega) hj2⟩

theorem firstZero_eq_some_iff (s : EStore) (cnt i : Nat) :
    firstZero s cnt = some i ↔
      (i < cnt ∧ isZeroSlot s i = true ∧ ∀ j < i, isZeroSlot s j = false) := by
  unfold firstZero
  rw [List.range_eq_range', find?_range'_eq_some]
  constructor
  · intro ⟨_, h2, h3, h4⟩
    exact ⟨by omega, h3, fun j hj => h4 j (by omega) hj⟩
  · intro ⟨h1, h2, h3⟩
    exact ⟨by omega, by omega, h2, fun j _ hj => h3 j hj⟩

theorem firstZero_eq_none_iff (s : EStore) (cnt : Nat) :
    firstZero s cnt = none ↔ ∀ i < cnt, isZeroSlot s i = false := by
  unfold firstZero
  rw [List.find?_eq_none]
  constructor
  · intro h i hi
    have := h i (by simpa using hi)
    simpa using this
  · intro h i hi
    have := h i (by simpa using hi)
    simp [this]

theorem appendE_reuse_some (s : EStore) (v : List ℚ) (i₀ : Nat)
    (hcap : 0 < s.capacity) (hfz : firstZero s (s.fileSize / embSize s) = some i₀)
    (hne : i₀ ≠ s.fileSize / embSize s) :
    appendE s v true = (writeSlot s i₀ v, i₀) := by
  unfold appendE
  simp only [hfz]
  simp [hcap, hne]

theorem appendE_no_reuse (s : EStore) (v : List ℚ) :
    appendE s v false =
      (writeSlot { ensureCapacity s (s.fileSize + embSize s) with
          fileSize := s.fileSize + embSize s } (s.fileSize / embSize s) v,
        s.fileSize / embSize s) := by
  unfold appendE
  simp

theorem appendE_reuse_none (s : EStore) (v : List ℚ)
    (h : firstZero s (s.fileSize / embSize s) = none) :
    appendE s v true = appendE s v false := by
  unfold appendE
  simp only [h]
  by_cases hcap : 0 < s.capacity
  · simp [hcap]
  · simp [hcap]

/-- C4: append(v, reuse=true) writes v into the smallest all-zero slot below
count and returns that index with count and file_size unchanged; when no
all-zero slot exists it is literally the same operation as
append(v, reuse=false): the vector lands at index count, file_size advances
by one slot, and the old count is returned.  (The reuse scan runs only when
the mapping exists, i.e. capacity > 0; an unmapped store has count 0.) -/
theorem C4_append_reuse (s : EStore) (v : List ℚ) (hv : v.length = s.dims) :
    (∀ i₀, 0 < s.capacity →
      (i₀ < countS s ∧ isZeroSlot s i₀ = true ∧ ∀ j < i₀, isZeroSlot s j = false) →
        (appendE s v true).2 = i₀ ∧
        slotAt (appendE s v true).1 i₀ = v ∧
        (∀ j, j ≠ i₀ → slotAt (appendE s v true).1 j = slotAt s j) ∧
        countS (appendE s v true).1 = countS s ∧
        (appendE s v true).1.fileSize = s.fileSize) ∧
    ((∀ i < countS s, isZeroSlot s i = false) →
      appendE s v true = appendE s v false ∧
      (appendE s v false).2 = countS s ∧
      slotAt (appendE s v false).1 (countS s) = v ∧
      (appendE s v false).1.fileSize = s.fileSize + s.dims * 4) := by
  constructor
  · intro i₀ hcap ⟨h1, h2, h3⟩
    have hfz : firstZero s (s.fileSize / embSize s) = some i₀ :=
      (firstZero_eq_some_iff s _ i₀).mpr ⟨h1, h2, h3⟩
    have hne : i₀ ≠ s.fileSize / embSize s := by
      have : countS s = s.fileSize / embSize s := rfl
      omega
    rw [appendE_reuse_some s v i₀ hcap hfz hne]
    exact ⟨rfl, slotAt_writeSlot_self s i₀ v hv,
      fun j hj => slotAt_writeSlot_other s i₀ j v hj, rfl, rfl⟩
  · intro h
    have hfz : firstZero s (s.fileSize / embSize s) = none :=
      (firstZero_eq_none_iff s _).mpr h
    refine ⟨appendE_reuse_none s v hfz, ?_, ?_, ?_⟩
    · rw [appendE_no_reuse]
      rfl
    · rw [appendE_no_reuse]
      apply slotAt_writeSlot_self
      rw [hv]
      show s.dims = (ensureCapacity s (s.fileSize + embSize s)).dims
      rw [ensureCapacity_dims]
    · rw [appendE_no_reuse]
      rfl

/-- Witness for C4 on a concrete store: D = 1, slots [3, 0, 0]; reuse picks
slot 1 (the smallest zero), and once slots are nonzero reuse appends. -/
theorem C4_append_reuse_witness :
    ((appendE ⟨1, 12, 16, [3, 0, 0]⟩ [9] true).2 = 1 ∧
      slotAt (appendE ⟨1, 12, 16, [3, 0, 0]⟩ [9] true).1 1 = [9] ∧
      (∀ j, j ≠ 1 → slotAt (appendE ⟨1, 12, 16, [3, 0, 0]⟩ [9] true).1 j =
        slotAt ⟨1, 12, 16, [3, 0, 0]⟩ j) ∧
      countS (appendE ⟨1, 12, 16, [3, 0, 0]⟩ [9] true).1 = countS ⟨1, 12, 16, [3, 0, 0]⟩ ∧
      (appendE ⟨1, 12, 16, [3, 0, 0]⟩ [9] true).1.fileSize =
        (⟨1, 12, 16, [3, 0, 0]⟩ : EStore).fileSize) ∧
    (appendE ⟨1, 8, 16, [3, 5]⟩ [9] true = appendE ⟨1, 8, 16, [3, 5]⟩ [9] false ∧
      (appendE ⟨1, 8, 16, [3, 5]⟩ [9] false).2 = countS ⟨1, 8, 16, [3, 5]⟩ ∧
      slotAt (appendE ⟨1, 8, 16, [3, 5]⟩ [9] false).1 (countS ⟨1, 8, 16, [3, 5]⟩) = [9] ∧
      (appendE ⟨1, 8, 16, [3, 5]⟩ [9] false).1.fileSize =
        (⟨1, 8, 16, [3, 5]⟩ : EStore).fileSize + 1 * 4) := by
  constructor
  · exact (C4_append_reuse ⟨1, 12, 16, [3, 0, 0]⟩ [9] (by norm_num)).1 1 (by norm_num)
      ⟨by norm_num [countS], by decide, by decide⟩
  · exact (C4_append_reuse ⟨1, 8, 16, [3, 5]⟩ [9] (by norm_num)).2 (by decide)

/-! ## Claim C3: ensure_capacity growth -/

theorem capLoop_eq (c needed : Nat) :
    capLoop c needed =
      if c < needed then (if c = 0 then 0 else capLoop (2 * c) needed) else c := by
  rw [capLoop]

theorem capLoop_spec (c needed : Nat) (hc : 0 < c) :
    ∃ j : Nat, capLoop c needed = c * 2 ^ j ∧ needed ≤ c * 2 ^ j ∧
      ∀ j2 < j, c * 2 ^ j2 < needed := by
  induction c, needed using capLoop.induct with
  | case1 needed hlt =>
    omega
  | case2 c needed hlt hz ih =>
    obtain ⟨j, h1, h2, h3⟩ := ih (by omega)
    refine ⟨j + 1, ?_, ?_, ?_⟩
    · rw [capLoop_eq, if_pos hlt, if_neg hz, h1]
      ring
    · calc needed ≤ 2 * c * 2 ^ j := h2
      _ = c * 2 ^ (j + 1) := by ring
    · intro j2 hj2
      cases j2 with
      | zero =>
        simpa using hlt
      | succ j3 =>
        have := h3 j3 (by omega)
        calc c * 2 ^ (j3 + 1) = 2 * c * 2 ^ j3 := by ring
        _ < needed := this
  | case3 c needed hlt =>
    refine ⟨0, ?_, ?_, ?_⟩
    · rw [capLoop_eq, if_neg hlt]
      ring
    · omega
    · omega

/-- C3 (amended): ensure_capacity leaves the capacity alone when the request
fits; otherwise the new capacity is obtained by repeatedly doubling starting
from capacity*2 when the store is mapped (4096 when capacity is 0) until the
value is at least the requested bytes - i.e. the least such doubled value.
The spec's phrase "doubling from max(mapped_capacity, 4096)" does not match
the source when 0 < capacity < 4096 (see the counterexample). -/
theorem C3_ensure_capacity_growth (s : EStore) (bytes : Nat) :
    (bytes ≤ s.capacity → ensureCapacity s bytes = s) ∧
    (s.capacity < bytes →
      ∃ j : Nat,
        (ensureCapacity s bytes).capacity =
          (if s.capacity = 0 then 4096 else 2 * s.capacity) * 2 ^ j ∧
        bytes ≤ (ensureCapacity s bytes).capacity ∧
        ∀ j2 < j, (if s.capacity = 0 then 4096 else 2 * s.capacity) * 2 ^ j2 < bytes) := by
  constructor
  · intro h
    unfold ensureCapacity
    rw [if_pos h]
  · intro h
    have hcap : (ensureCapacity s bytes).capacity =
        capLoop (if s.capacity = 0 then 4096 else 2 * s.capacity) bytes := by
      unfold ensureCapacity
      rw [if_neg (by omega)]
    rw [hcap]
    obtain ⟨j, h1, h2, h3⟩ :=
      capLoop_spec (if s.capacity = 0 then 4096 else 2 * s.capacity) bytes
        (by split <;> omega)
    exact ⟨j, h1, by rw [h1]; exact h2, h3⟩

/-- Witness for C3: an unmapped store asked for 5000 bytes doubles 4096 once
to 8192. -/
theorem C3_ensure_capacity_growth_witness :
    (5000 ≤ (openE 1 0 []).capacity → ensureCapacity (openE 1 0 []) 5000 = openE 1 0 []) ∧
    ((openE 1 0 []).capacity < 5000 →
      ∃ j : Nat,
        (ensureCapacity (openE 1 0 []) 5000).capacity =
          (if (openE 1 0 []).capacity = 0 then 4096 else 2 * (openE 1 0 []).capacity) * 2 ^ j ∧
        5000 ≤ (ensureCapacity (openE 1 0 []) 5000).capacity ∧
        ∀ j2 < j, (if (openE 1 0 []).capacity = 0 then 4096
          else 2 * (openE 1 0 []).capacity) * 2 ^ j2 < 5000) :=
  C3_ensure_capacity_growth (openE 1 0 []) 5000

/-- C3 as stated fails when 0 < capacity < 4096 (reachable by opening an
existing small file): with capacity 1000 and a request of 1500 bytes the
source doubles from 1000 to 2000, while doubling from max(1000, 4096) as the
claim words it would stop at 4096. -/
theorem C3_counterexample :
    (ensureCapacity (openE 1 1000 (List.replicate 250 1)) 1500).capacity = 2000 ∧
    specNewCap 1000 1500 = 4096 ∧ (2000 : Nat) ≠ 4096 := by
  refine ⟨?_, ?_, by norm_num⟩
  · show capLoop 2000 1500 = 2000
    rw [capLoop_eq]
    norm_num
  · show capLoop (max 1000 4096) 1500 = 4096
    rw [capLoop_eq]
    norm_num

/-! ## Exactness of the sqrt model on perfect squares -/

theorem ratSqrt_mul_self (x : ℚ) (hx : 0 ≤ x) : ratSqrt (x * x) = x := by
  rcases eq_or_lt_of_le hx with he | hpos
  · rw [← he]
    norm_num [ratSqrt]
  · have hxx : 0 < x * x := mul_pos hpos hpos
    unfold ratSqrt
    rw [if_neg (not_le.mpr hxx), Rat.mul_self_num, Rat.mul_self_den]
    have hnum : 0 ≤ x.num := Rat.num_nonneg.mpr hx
    obtain ⟨m, hm⟩ := Int.eq_ofNat_of_zero_le hnum
    rw [hm]
    have h1 : ((m : ℤ) * m).toNat = m * m := by
      rw [← Nat.cast_mul, Int.toNat_natCast]
    rw [h1]
    have h2 : Nat.sqrt (m * m) = m := by
      have := Nat.sqrt_eq' m
      rwa [pow_two] at this
    have h3 : Nat.sqrt (x.den * x.den) = x.den := by
      have := Nat.sqrt_eq' x.den
      rwa [pow_two] at this
    rw [h2, h3]
    have h4 := Rat.num_div_den x
    rw [hm, Int.cast_natCast] at h4
    exact h4

theorem normQ_eval (a : List ℚ) (n : Nat) (x : ℚ) (hx : 0 ≤ x)
    (h : normSqQ a n = x * x) : normQ a n = x := by
  unfold normQ
  rw [h, ratSqrt_mul_self x hx]

/-! ## Small evaluation lemmas for the heap routines -/

theorem siftUpMin_zero (l : List Result) : siftUpMin l 0 = l := by
  rw [siftUpMin]
  simp

theorem siftUpMax_zero (l : List Result) : siftUpMax l 0 = l := by
  rw [siftUpMax]
  simp

theorem pushMin_insert (k : Nat) (l : List Result) (x : Result) (h : l.length < k) :
    pushMin k l x = siftUpMin (l ++ [x]) l.length := by
  unfold pushMin
  rw [if_pos h]

theorem pushMax_insert (k : Nat) (l : List Result) (x : Result) (h : l.length < k) :
    pushMax k l x = siftUpMax (l ++ [x]) l.length := by
  unfold pushMax
  rw [if_pos h]

theorem pushMin_keep (k : Nat) (l : List Result) (x : Result)
    (h1 : ¬ l.length < k) (h2 : ¬ scoreAt l 0 < x.score) : pushMin k l x = l := by
  unfold pushMin
  rw [if_neg h1, if_neg h2]

theorem pushMax_keep (k : Nat) (l : List Result) (x : Result)
    (h1 : ¬ l.length < k) (h2 : ¬ x.score < scoreAt l 0) : pushMax k l x = l := by
  unfold pushMax
  rw [if_neg h1, if_neg h2]

theorem pushMin_evict (k : Nat) (l : List Result) (x : Result)
    (h1 : ¬ l.length < k) (h2 : scoreAt l 0 < x.score) :
    pushMin k l x = siftDownMin k (l.set 0 x) 0 := by
  unfold pushMin
  rw [if_neg h1, if_pos h2]

theorem pushMax_evict (k : Nat) (l : List Result) (x : Result)
    (h1 : ¬ l.length < k) (h2 : x.score < scoreAt l 0) :
    pushMax k l x = siftDownMax k (l.set 0 x) 0 := by
  unfold pushMax
  rw [if_neg h1, if_pos h2]

theorem siftDownMin_stop (k : Nat) (l : List Result) (i : Nat)
    (h : minChildSel k l i = i) : siftDownMin k l i = l := by
  rw [siftDownMin]
  simp [h]

theorem siftDownMax_stop (k : Nat) (l : List Result) (i : Nat)
    (h : maxChildSel k l i = i) : siftDownMax k l i = l := by
  rw [siftDownMax]
  simp [h]

/-! ## Claim C1: the per-candidate similarity guards -/

/-- C1 (amended): the single-threaded scan pushes 0.0 unless both the query
norm and the candidate norm strictly exceed FLT_EPSILON (then
dot/(qn*en)); the worker pushes 0.0 unless both norms are strictly positive.
Both agree with the kernel contract of cosine whenever each norm is either
exactly 0 or strictly greater than FLT_EPSILON; the worker deviates from it
for norms inside (0, FLT_EPSILON), the scan at norms equal to FLT_EPSILON. -/
theorem C1_search_score_guards (s : EStore) (q : List ℚ) (i : Nat)
    (hq : normQ q s.dims = 0 ∨ fltEps < normQ q s.dims)
    (he : candNorm s i = 0 ∨ fltEps < candNorm s i) :
    stScore s q i = simKernel (normQ q s.dims) (candNorm s i) (candDot s q i) ∧
    mtScore s q i = simKernel (normQ q s.dims) (candNorm s i) (candDot s q i) := by
  have heps : (0 : ℚ) < fltEps := by norm_num [fltEps]
  unfold stScore mtScore simST simMT simKernel
  rcases hq with hq | hq
  · rw [hq]
    constructor
    · rw [if_neg (by intro h; linarith [h.1]), if_pos (Or.inl (by linarith))]
    · rw [if_neg (by intro h; linarith [h.1]), if_pos (Or.inl (by linarith))]
  · rcases he with he | he
    · rw [he]
      constructor
      · rw [if_neg (by intro h; linarith [h.2]), if_pos (Or.inr (by linarith))]
      · rw [if_neg (by intro h; linarith [h.2]), if_pos (Or.inr (by linarith))]
    · constructor
      · rw [if_pos ⟨hq, he⟩, if_neg (by intro h; rcases h with h | h <;> linarith)]
      · rw [if_pos ⟨by linarith, by linarith⟩,
          if_neg (by intro h; rcases h with h | h <;> linarith)]

/-- Witness for C1 on norms 1 and 5 (both above FLT_EPSILON). -/
theorem C1_search_score_guards_witness :
    stScore ⟨2, 8, 16, [3, 4]⟩ [1, 0] 0 =
      simKernel (normQ [1, 0] (⟨2, 8, 16, [3, 4]⟩ : EStore).dims)
        (candNorm ⟨2, 8, 16, [3, 4]⟩ 0) (candDot ⟨2, 8, 16, [3, 4]⟩ [1, 0] 0) ∧
    mtScore ⟨2, 8, 16, [3, 4]⟩ [1, 0] 0 =
      simKernel (normQ [1, 0] (⟨2, 8, 16, [3, 4]⟩ : EStore).dims)
        (candNorm ⟨2, 8, 16, [3, 4]⟩ 0) (candDot ⟨2, 8, 16, [3, 4]⟩ [1, 0] 0) := by
  have hq : normQ [1, 0] (⟨2, 8, 16, [3, 4]⟩ : EStore).dims = 1 := by
    apply normQ_eval _ _ 1 (by norm_num)
    show normSqQ [1, 0] 2 = 1 * 1
    simp [normSqQ, List.range_succ]
  have he : candNorm ⟨2, 8, 16, [3, 4]⟩ 0 = 5 := by
    apply normQ_eval _ _ 5 (by norm_num)
    show normSqQ (slotAt ⟨2, 8, 16, [3, 4]⟩ 0) 2 = 5 * 5
    simp [normSqQ, List.range_succ, slotAt, List.getD]
    norm_num
  exact C1_search_score_guards ⟨2, 8, 16, [3, 4]⟩ [1, 0] 0
    (Or.inr (by rw [hq]; norm_num [fltEps]))
    (Or.inr (by rw [he]; norm_num [fltEps]))

/-- C1 as stated fails on the worker: for the one-slot store holding the
vector [2^-24] and query [1], the worker pushes the pair (0, 1) although the
candidate norm 2^-24 is below FLT_EPSILON, where the kernel contract yields
exactly 0. -/
theorem C1_counterexample :
    workerHeap ⟨1, 4, 4, [1/16777216]⟩ [1] 1 true 0 1 = [⟨0, 1⟩] ∧
    candNorm ⟨1, 4, 4, [1/16777216]⟩ 0 < fltEps ∧
    simKernel (normQ [1] (⟨1, 4, 4, [1/16777216]⟩ : EStore).dims)
      (candNorm ⟨1, 4, 4, [1/16777216]⟩ 0)
      (candDot ⟨1, 4, 4, [1/16777216]⟩ [1] 0) = 0 ∧
    (1 : ℚ) ≠ 0 := by
  have hq : normQ [1] (⟨1, 4, 4, [1/16777216]⟩ : EStore).dims = 1 := by
    apply normQ_eval _ _ 1 (by norm_num)
    show normSqQ [1] 1 = 1 * 1
    simp [normSqQ, List.range_succ]
  have he : candNorm ⟨1, 4, 4, [1/16777216]⟩ 0 = 1/16777216 := by
    apply normQ_eval _ _ (1/16777216) (by norm_num)
    show normSqQ (slotAt ⟨1, 4, 4, [1/16777216]⟩ 0) 1 = 1/16777216 * (1/16777216)
    simp [normSqQ, List.range_succ, slotAt, List.getD]
  have hd : candDot ⟨1, 4, 4, [1/16777216]⟩ [1] 0 = 1/16777216 := by
    show dotQ [1] (slotAt ⟨1, 4, 4, [1/16777216]⟩ 0) 1 = 1/16777216
    simp [dotQ, List.range_succ, slotAt, List.getD]
  have hz : isZeroSlot ⟨1, 4, 4, [1/16777216]⟩ 0 = false := by
    rw [Bool.eq_false_iff, Ne, isZeroSlot_iff]
    intro h
    have := h 0 (by norm_num)
    norm_num [List.getD] at this
  have hscore : mtScore ⟨1, 4, 4, [1/16777216]⟩ [1] 0 = 1 := by
    unfold mtScore simMT
    rw [hq, he, hd]
    rw [if_pos (by constructor <;> norm_num)]
    norm_num
  refine ⟨?_, ?_, ?_, by norm_num⟩
  · unfold workerHeap
    show (List.range' 0 1).foldl _ [] = _
    rw [show List.range' 0 1 = [0] from rfl]
    rw [List.foldl_cons, List.foldl_nil]
    unfold mtStep
    rw [hz]
    simp only [Bool.false_eq_true, if_false, if_true, hscore]
    rw [pushMin_insert 1 [] _ (by norm_num), List.nil_append, List.length_nil,
      siftUpMin_zero]
  · rw [he]
    norm_num [fltEps]
  · unfold simKernel
    rw [hq, he]
    rw [if_pos (Or.inr (by norm_num [fltEps]))]

/-! ## Claim C9: evaluation machinery for the binary32 rounding model -/

theorem int_log2_eq (q : ℚ) (e : ℤ) (h1 : (2 : ℚ) ^ e ≤ q) (h2 : q < 2 ^ (e + 1)) :
    Int.log 2 q = e := by
  have h0 : (0 : ℚ) < q := lt_of_lt_of_le (by positivity) h1
  have ha := @Int.zpow_log_le_self ℚ _ _ 2 q (by norm_num) h0
  have hb := @Int.lt_zpow_succ_log_self ℚ _ _ 2 (by norm_num) q
  have hx : Int.log 2 q < e + 1 := by
    by_contra hc
    push_neg at hc
    have hle := zpow_le_zpow_right₀ (by norm_num : (1 : ℚ) ≤ 2) hc
    exact absurd (lt_of_lt_of_le h2 (le_trans hle ha)) (lt_irrefl _)
  have hy : e < Int.log 2 q + 1 := by
    by_contra hc
    push_neg at hc
    have hle := zpow_le_zpow_right₀ (by norm_num : (1 : ℚ) ≤ 2) hc
    exact absurd (lt_of_le_of_lt (le_trans hle h1) hb) (lt_irrefl _)
  omega

theorem nat_sqrt_eq (m r : ℕ) (h1 : r * r ≤ m) (h2 : m < (r + 1) * (r + 1)) :
    Nat.sqrt m = r := by
  have ha : r ≤ Nat.sqrt m := Nat.le_sqrt.mpr h1
  have hb : Nat.sqrt m < r + 1 := Nat.sqrt_lt.mpr h2
  omega

theorem rnd_eval_pos (q : ℚ) (hq : 0 < q) : Fp.rnd q = Fp.rndPos q := by
  unfold Fp.rnd
  rw [if_neg hq.ne', if_neg (not_lt.mpr hq.le)]

theorem rndPos_eval (q : ℚ) (e n : ℤ) (h1 : (2 : ℚ) ^ e ≤ q) (h2 : q < 2 ^ (e + 1))
    (hfl : ⌊q / 2 ^ (e - 23)⌋ = n) :
    Fp.rndPos q =
      (if q / 2 ^ (e - 23) - (n : ℚ) < 1 / 2 then (n : ℚ)
        else if 1 / 2 < q / 2 ^ (e - 23) - (n : ℚ) then (n : ℚ) + 1
        else if n % 2 = 0 then (n : ℚ) else (n : ℚ) + 1) * 2 ^ (e - 23) := by
  unfold Fp.rndPos
  rw [int_log2_eq q e h1 h2]
  dsimp only
  rw [hfl]
  split_ifs <;> push_cast <;> ring

theorem fsqrt_eval (x : ℚ) (e2 e : ℤ) (fl : ℤ) (r : ℕ) (hx : 0 < x)
    (h1 : (2 : ℚ) ^ e2 ≤ x) (h2 : x < 2 ^ (e2 + 1))
    (he : Int.fdiv e2 2 - 23 = e)
    (hfl : ⌊x / 2 ^ (2 * e)⌋ = fl)
    (hr1 : r * r ≤ fl.toNat) (hr2 : fl.toNat < (r + 1) * (r + 1)) :
    Fp.fsqrt x =
      (if x / 2 ^ (2 * e) < ((r : ℚ) + 1 / 2) ^ 2 then (r : ℚ)
        else if ((r : ℚ) + 1 / 2) ^ 2 < x / 2 ^ (2 * e) then (r : ℚ) + 1
        else if r % 2 = 0 then (r : ℚ) else (r : ℚ) + 1) * 2 ^ e := by
  unfold Fp.fsqrt
  rw [if_neg (not_le.mpr hx), int_log2_eq x e2 h1 h2, he]
  dsimp only
  rw [hfl, nat_sqrt_eq fl.toNat r hr1 hr2]
  split_ifs <;> push_cast <;> ring

/-- C9 is violated by the code under IEEE-754 binary32 arithmetic: the raw
quotient of embedlet_similarity_raw on the self-pair a = b = [225.75, 352]
(D = 2) evaluates to exactly 1 + 2^-23, strictly greater than 1, with no
clamping; the header's own doc comment promises a value in [-1, 1].  (Each
operation below is the correctly rounded binary32 result; the bound does
hold of the exact real quotient by Cauchy-Schwarz, so the excess is pure
rounding.) -/
theorem C9_similarity_bound_violation :
    Fp.similarityRawF [903 / 4, 352] [903 / 4, 352] 2 = 1 + 1 / 2 ^ 23 ∧
    1 < Fp.similarityRawF [903 / 4, 352] [903 / 4, 352] 2 := by
  have hmul0 : Fp.fmul (903 / 4 : ℚ) (903 / 4) = 815409 / 16 := by
    unfold Fp.fmul
    rw [rnd_eval_pos _ (by norm_num),
      rndPos_eval _ 15 13046544 (by norm_num) (by norm_num) (by norm_num)]
    norm_num
  have hadd0 : Fp.fadd 0 (815409 / 16 : ℚ) = 815409 / 16 := by
    unfold Fp.fadd
    rw [rnd_eval_pos _ (by norm_num),
      rndPos_eval _ 15 13046544 (by norm_num) (by norm_num) (by norm_num)]
    norm_num
  have hmul1 : Fp.fmul (352 : ℚ) 352 = 123904 := by
    unfold Fp.fmul
    rw [rnd_eval_pos _ (by norm_num),
      rndPos_eval _ 16 15859712 (by norm_num) (by norm_num) (by norm_num)]
    norm_num
  have hadd1 : Fp.fadd (815409 / 16 : ℚ) 123904 = 2797873 / 16 := by
    unfold Fp.fadd
    rw [rnd_eval_pos _ (by norm_num),
      rndPos_eval _ 17 11191492 (by norm_num) (by norm_num) (by norm_num)]
    norm_num
  have hsqrt : Fp.fsqrt (2797873 / 16 : ℚ) = 6851315 / 16384 := by
    rw [fsqrt_eval _ 17 (-15) 187762078646272 13702630 (by norm_num) (by norm_num)
      (by norm_num) (by decide) (by norm_num) (by norm_num) (by norm_num)]
    norm_num
  have hdenom : Fp.fmul (6851315 / 16384 : ℚ) (6851315 / 16384) = 11191491 / 64 := by
    unfold Fp.fmul
    rw [rnd_eval_pos _ (by norm_num),
      rndPos_eval _ 17 11191491 (by norm_num) (by norm_num) (by norm_num)]
    norm_num
  have hdiv : Fp.fdiv (2797873 / 16 : ℚ) (11191491 / 64) = 1 + 1 / 2 ^ 23 := by
    unfold Fp.fdiv
    rw [rnd_eval_pos _ (by norm_num),
      rndPos_eval _ 0 8388608 (by norm_num) (by norm_num) (by norm_num)]
    norm_num
  have hdot : Fp.dotF [903 / 4, 352] [903 / 4, 352] 2 = 2797873 / 16 := by
    unfold Fp.dotF
    rw [show List.range 2 = [0, 1] by decide]
    rw [List.foldl_cons, List.foldl_cons, List.foldl_nil]
    simp only [List.getD_cons_zero, List.getD_cons_succ]
    rw [hmul0, hadd0, hmul1, hadd1]
  have hnormsq : Fp.normSqF [903 / 4, 352] 2 = 2797873 / 16 := by
    unfold Fp.normSqF
    rw [show List.range 2 = [0, 1] by decide]
    rw [List.foldl_cons, List.foldl_cons, List.foldl_nil]
    simp only [List.getD_cons_zero, List.getD_cons_succ]
    rw [hmul0, hadd0, hmul1, hadd1]
  have hnorm : Fp.normF [903 / 4, 352] 2 = 6851315 / 16384 := by
    unfold Fp.normF
    rw [hnormsq, hsqrt]
  have hval : Fp.similarityRawF [903 / 4, 352] [903 / 4, 352] 2 = 1 + 1 / 2 ^ 23 := by
    unfold Fp.similarityRawF
    rw [if_neg (by norm_num)]
    simp only [hdot, hnorm]
    rw [if_neg (by norm_num [fltEps]), hdenom, hdiv]
  exact ⟨hval, by rw [hval]; norm_num⟩

/-! ## Heap machinery: swaps -/

theorem getDR (l : List Result) (i : Nat) (h : i < l.length) :
    l.getD i default = l[i] := by
  rw [List.getD_eq_getElem?_getD, List.getElem?_eq_getElem h]
  rfl

theorem length_swapL (l : List Result) (i j : Nat) :
    (swapL l i j).length = l.length := by
  simp [swapL, List.length_set]

theorem getD_swapL (l : List Result) (i j m : Nat)
    (hi : i < l.length) (hj : j < l.length) :
    (swapL l i j).getD m default =
      if m = j then l.getD i default
      else if m = i then l.getD j default
      else l.getD m default := by
  unfold swapL
  by_cases hmj : m = j
  · subst hmj
    rw [if_pos rfl, List.getD_eq_getElem?_getD,
      List.getElem?_set_eq (by simpa [List.length_set] using hj)]
    rfl
  · rw [if_neg hmj, List.getD_eq_getElem?_getD, List.getElem?_set_ne (fun h => hmj h.symm)]
    by_cases hmi : m = i
    · subst hmi
      rw [if_pos rfl, List.getElem?_set_eq hi]
      rfl
    · rw [if_neg hmi, List.getElem?_set_ne (fun h => hmi h.symm),
        ← List.getD_eq_getElem?_getD]

theorem scoreAt_swapL (l : List Result) (i j m : Nat)
    (hi : i < l.length) (hj : j < l.length) :
    scoreAt (swapL l i j) m =
      if m = j then scoreAt l i
      else if m = i then scoreAt l j
      else scoreAt l m := by
  unfold scoreAt
  rw [getD_swapL l i j m hi hj]
  split_ifs <;> rfl

theorem mset_swapL (l : List Result) (i j : Nat)
    (hi : i < l.length) (hj : j < l.length) :
    ((swapL l i j : List Result) : Multiset Result) = (l : Multiset Result) := by
  apply Multiset.ext.mpr
  intro b
  rw [Multiset.coe_count, Multiset.coe_count]
  unfold swapL
  rw [getDR l i hi, getDR l j hj]
  have hj' : j < (l.set i l[j]).length := by simpa [List.length_set] using hj
  rw [List.count_set l[i] b (l.set i l[j]) j hj', List.count_set l[j] b l i hi]
  have hset : (l.set i l[j])[j] = l[j] := by
    rw [List.getElem_set]
    split <;> simp_all
  rw [hset]
  have hmem1 : (l[i] == b) = true → 1 ≤ l.count b := by
    intro h
    have : l[i] = b := eq_of_beq h
    exact List.count_pos_iff.mpr (this ▸ List.getElem_mem hi)
  have hmem2 : (l[j] == b) = true → 1 ≤ l.count b := by
    intro h
    have : l[j] = b := eq_of_beq h
    exact List.count_pos_iff.mpr (this ▸ List.getElem_mem hj)
  by_cases h1 : l[i] == b
  · have hc1 := hmem1 h1
    by_cases h2 : l[j] == b
    · simp only [h1, h2, if_true]
      omega
    · simp only [h1, eq_false h2, if_true, if_false]
      omega
  · by_cases h2 : l[j] == b
    · simp only [eq_false h1, h2, if_true, if_false]
      omega
    · simp only [eq_false h1, eq_false h2, if_false]
      omega

/-! ## Heap machinery: the heap order and the root -/

theorem scoreAt_eq_getElem (l : List Result) (m : Nat) (h : m < l.length) :
    scoreAt l m = l[m].score := by
  unfold scoreAt
  rw [getDR l m h]

theorem isMinHeap_root_le_index (l : List Result) (hl : IsMinHeap l) :
    ∀ i, i < l.length → scoreAt l 0 ≤ scoreAt l i := by
  intro i
  induction i using Nat.strong_induction_on with
  | _ i ih =>
    intro hi
    rcases Nat.eq_zero_or_pos i with h0 | h0
    · rw [h0]
    · have hp : (i - 1) / 2 < i := by omega
      exact le_trans (ih _ hp (by omega)) (hl i h0 hi)

theorem isMinHeap_root_le_mem (l : List Result) (hl : IsMinHeap l) :
    ∀ x ∈ l, scoreAt l 0 ≤ x.score := by
  intro x hx
  obtain ⟨m, hm, rfl⟩ := List.getElem_of_mem hx
  rw [← scoreAt_eq_getElem l m hm]
  exact isMinHeap_root_le_index l hl m hm

/-! ## Heap machinery: sift-up -/

theorem siftUpMin_stop (l : List Result) (i : Nat) (h : i ≠ 0)
    (h2 : scoreAt l ((i - 1) / 2) ≤ scoreAt l i) : siftUpMin l i = l := by
  rw [siftUpMin]
  simp [h, h2]

theorem siftUpMin_step (l : List Result) (i : Nat) (h : i ≠ 0)
    (h2 : ¬ scoreAt l ((i - 1) / 2) ≤ scoreAt l i) :
    siftUpMin l i = siftUpMin (swapL l ((i - 1) / 2) i) ((i - 1) / 2) := by
  rw [siftUpMin]
  simp [h, h2]

theorem suInvMin_heap_of_stop (l : List Result) (i : Nat) (h : SuInvMin l i)
    (h2 : scoreAt l ((i - 1) / 2) ≤ scoreAt l i) : IsMinHeap l := by
  intro c hc hcl
  by_cases hci : c = i
  · subst hci
    exact h2
  · exact h.heap c hc hcl hci

theorem suInvMin_heap_of_zero (l : List Result) (h : SuInvMin l 0) : IsMinHeap l := by
  intro c hc hcl
  exact h.heap c hc hcl (by omega)

theorem suInvMin_swap (l : List Result) (i : Nat) (h : SuInvMin l i) (hi0 : i ≠ 0)
    (hlt : ¬ scoreAt l ((i - 1) / 2) ≤ scoreAt l i) :
    SuInvMin (swapL l ((i - 1) / 2) i) ((i - 1) / 2) := by
  push_neg at hlt
  have hil : i < l.length := h.bounded
  have hpi : (i - 1) / 2 < i := by omega
  have hpl : (i - 1) / 2 < l.length := by omega
  have hsc : ∀ m, scoreAt (swapL l ((i - 1) / 2) i) m =
      if m = i then scoreAt l ((i - 1) / 2)
      else if m = (i - 1) / 2 then scoreAt l i
      else scoreAt l m := fun m => scoreAt_swapL l ((i - 1) / 2) i m hpl hil
  have hval : ∀ m, m ≠ i → m ≠ (i - 1) / 2 →
      scoreAt (swapL l ((i - 1) / 2) i) m = scoreAt l m := by
    intro m h1 h2
    rw [hsc m, if_neg h1, if_neg h2]
  have hvi : scoreAt (swapL l ((i - 1) / 2) i) i = scoreAt l ((i - 1) / 2) := by
    rw [hsc i, if_pos rfl]
  have hvp : scoreAt (swapL l ((i - 1) / 2) i) ((i - 1) / 2) = scoreAt l i := by
    rw [hsc ((i - 1) / 2), if_neg (by omega), if_pos rfl]
  refine ⟨by rw [length_swapL]; omega, ?_, ?_⟩
  · intro c hc hcl hcp
    rw [length_swapL] at hcl
    by_cases hci : c = i
    · subst hci
      rw [hvi, hvp]
      exact le_of_lt hlt
    · by_cases hcpar : (c - 1) / 2 = i
      · rw [hcpar, hvi, hval c hci (by omega)]
        exact h.below c hc hcl hcpar
      · by_cases hcpp : (c - 1) / 2 = (i - 1) / 2
        · rw [hcpp, hvp, hval c hci (by omega)]
          have h2 := h.heap c hc hcl hci
          rw [hcpp] at h2
          exact le_trans (le_of_lt hlt) h2
        · rw [hval ((c - 1) / 2) hcpar hcpp, hval c hci hcp]
          exact h.heap c hc hcl hci
  · intro c hc hcl hcpar
    rw [length_swapL] at hcl
    have hcs : c ≠ (i - 1) / 2 := by omega
    by_cases hp0 : (i - 1) / 2 = 0
    · have hpp0 : ((i - 1) / 2 - 1) / 2 = (i - 1) / 2 := by omega
      rw [hpp0, hvp]
      by_cases hci : c = i
      · subst hci
        rw [hvi]
        exact le_of_lt hlt
      · rw [hval c hci hcs]
        have h2 := h.heap c hc hcl hci
        rw [hcpar] at h2
        exact le_trans (le_of_lt hlt) h2
    · have hppi : ((i - 1) / 2 - 1) / 2 ≠ i := by omega
      have hppp : ((i - 1) / 2 - 1) / 2 ≠ (i - 1) / 2 := by omega
      rw [hval (((i - 1) / 2 - 1) / 2) hppi hppp]
      have hpar_p : scoreAt l (((i - 1) / 2 - 1) / 2) ≤ scoreAt l ((i - 1) / 2) :=
        h.heap ((i - 1) / 2) (by omega) hpl (by omega)
      by_cases hci : c = i
      · subst hci
        rw [hvi]
        exact hpar_p
      · rw [hval c hci hcs]
        have h2 := h.heap c hc hcl hci
        rw [hcpar] at h2
        exact le_trans hpar_p h2

theorem siftUpMin_spec (l : List Result) (i : Nat) (h : SuInvMin l i) :
    IsMinHeap (siftUpMin l i) ∧
      ((siftUpMin l i : List Result) : Multiset Result) = (l : Multiset Result) ∧
      (siftUpMin l i).length = l.length := by
  induction l, i using siftUpMin.induct with
  | case1 l =>
    rw [siftUpMin_zero]
    exact ⟨suInvMin_heap_of_zero l h, rfl, rfl⟩
  | case2 l i hi0 hle =>
    rw [siftUpMin_stop l i hi0 hle]
    exact ⟨suInvMin_heap_of_stop l i h hle, rfl, rfl⟩
  | case3 l i hi0 hlt ih =>
    rw [siftUpMin_step l i hi0 hlt]
    have hnext := suInvMin_swap l i h hi0 hlt
    obtain ⟨ha, hb, hc⟩ := ih hnext
    refine ⟨ha, ?_, ?_⟩
    · rw [hb, mset_swapL l _ i (by have := h.bounded; omega) h.bounded]
    · rw [hc, length_swapL]

/-! ## Heap machinery: sift-down -/

theorem minChildSel_self_le (k : Nat) (l : List Result) (i : Nat)
    (h : minChildSel k l i = i) :
    (2 * i + 1 < k → scoreAt l i ≤ scoreAt l (2 * i + 1)) ∧
    (2 * i + 2 < k → scoreAt l i ≤ scoreAt l (2 * i + 2)) := by
  unfold minChildSel at h
  dsimp only at h
  by_cases h1 : 2 * i + 1 < k ∧ scoreAt l (2 * i + 1) < scoreAt l i
  · rw [if_pos h1] at h
    by_cases h2 : 2 * i + 2 < k ∧ scoreAt l (2 * i + 2) < scoreAt l (2 * i + 1)
    · rw [if_pos h2] at h
      omega
    · rw [if_neg h2] at h
      omega
  · rw [if_neg h1] at h
    by_cases h2 : 2 * i + 2 < k ∧ scoreAt l (2 * i + 2) < scoreAt l i
    · rw [if_pos h2] at h
      omega
    · push_neg at h1 h2
      exact ⟨fun hk => not_lt.mp (fun hlt => absurd (h1 hk) (not_le.mpr hlt)),
        fun hk => not_lt.mp (fun hlt => absurd (h2 hk) (not_le.mpr hlt))⟩

theorem minChildSel_ne (k : Nat) (l : List Result) (i : Nat)
    (h : minChildSel k l i ≠ i) :
    (minChildSel k l i = 2 * i + 1 ∨ minChildSel k l i = 2 * i + 2) ∧
    minChildSel k l i < k ∧
    scoreAt l (minChildSel k l i) < scoreAt l i ∧
    (2 * i + 1 < k → scoreAt l (minChildSel k l i) ≤ scoreAt l (2 * i + 1)) ∧
    (2 * i + 2 < k → scoreAt l (minChildSel k l i) ≤ scoreAt l (2 * i + 2)) := by
  unfold minChildSel at h ⊢
  dsimp only at h ⊢
  by_cases h1 : 2 * i + 1 < k ∧ scoreAt l (2 * i + 1) < scoreAt l i
  · rw [if_pos h1] at h ⊢
    by_cases h2 : 2 * i + 2 < k ∧ scoreAt l (2 * i + 2) < scoreAt l (2 * i + 1)
    · rw [if_pos h2] at h ⊢
      exact ⟨Or.inr rfl, h2.1, lt_trans h2.2 h1.2,
        fun _ => le_of_lt h2.2, fun _ => le_refl _⟩
    · rw [if_neg h2] at h ⊢
      push_neg at h2
      exact ⟨Or.inl rfl, h1.1, h1.2, fun _ => le_refl _, fun hk => h2 hk⟩
  · rw [if_neg h1] at h ⊢
    by_cases h2 : 2 * i + 2 < k ∧ scoreAt l (2 * i + 2) < scoreAt l i
    · rw [if_pos h2] at h ⊢
      push_neg at h1
      exact ⟨Or.inr rfl, h2.1, h2.2,
        fun hk => le_trans (le_of_lt h2.2) (h1 hk), fun _ => le_refl _⟩
    · rw [if_neg h2] at h ⊢
      omega

theorem sdInvMin_heap_of_stop (k : Nat) (l : List Result) (i : Nat)
    (h : SdInvMin k l i) (hstop : minChildSel k l i = i) : IsMinHeap l := by
  obtain ⟨hle1, hle2⟩ := minChildSel_self_le k l i hstop
  intro c hc hcl
  rw [h.len] at hcl
  by_cases hcp : (c - 1) / 2 = i
  · have : c = 2 * i + 1 ∨ c = 2 * i + 2 := by omega
    rcases this with rfl | rfl
    · rw [hcp]
      exact hle1 hcl
    · rw [hcp]
      exact hle2 hcl
  · exact h.heap c hc hcl hcp

theorem sdInvMin_swap (k : Nat) (l : List Result) (i : Nat)
    (h : SdInvMin k l i) (hne : minChildSel k l i ≠ i) :
    SdInvMin k (swapL l i (minChildSel k l i)) (minChildSel k l i) := by
  obtain ⟨hchild, hsk, hslt, hle1, hle2⟩ := minChildSel_ne k l i hne
  have hil : i < l.length := by rw [h.len]; exact h.bounded
  have hsl : minChildSel k l i < l.length := by rw [h.len]; exact hsk
  have his : i < minChildSel k l i := by omega
  have hpar : (minChildSel k l i - 1) / 2 = i := by omega
  have hsc : ∀ m, scoreAt (swapL l i (minChildSel k l i)) m =
      if m = minChildSel k l i then scoreAt l i
      else if m = i then scoreAt l (minChildSel k l i)
      else scoreAt l m := fun m => scoreAt_swapL l i (minChildSel k l i) m hil hsl
  have hval : ∀ m, m ≠ i → m ≠ minChildSel k l i →
      scoreAt (swapL l i (minChildSel k l i)) m = scoreAt l m := by
    intro m h1 h2
    rw [hsc m, if_neg h2, if_neg h1]
  have hvi : scoreAt (swapL l i (minChildSel k l i)) i = scoreAt l (minChildSel k l i) := by
    rw [hsc i, if_neg (by omega), if_pos rfl]
  have hvs : scoreAt (swapL l i (minChildSel k l i)) (minChildSel k l i) = scoreAt l i := by
    rw [hsc _, if_pos rfl]
  refine ⟨by rw [length_swapL]; exact h.len, hsk, ?_, ?_⟩
  · intro c hc hck hcp
    by_cases hci : c = i
    · rw [hci, hvi]
      have hi0 : 0 < i := by omega
      rw [hval ((i - 1) / 2) (by omega) (by omega)]
      exact h.above hi0 (minChildSel k l i) (by omega) hsk hpar
    · by_cases hcs : c = minChildSel k l i
      · subst hcs
        rw [hvs, hpar, hvi]
        exact le_of_lt hslt
      · by_cases hcpi : (c - 1) / 2 = i
        · rw [hcpi, hvi, hval c hci hcs]
          have : c = 2 * i + 1 ∨ c = 2 * i + 2 := by omega
          rcases this with rfl | rfl
          · exact hle1 hck
          · exact hle2 hck
        · rw [hval _ hcpi hcp, hval c hci hcs]
          exact h.heap c hc hck hcpi
  · intro hs0 c hc hck hcps
    rw [hpar, hvi]
    have hci : c ≠ i := by omega
    have hcs : c ≠ minChildSel k l i := by omega
    rw [hval c hci hcs]
    have := h.heap c hc hck (by omega)
    rw [hcps] at this
    exact this

theorem siftDownMin_step (k : Nat) (l : List Result) (i : Nat)
    (h : minChildSel k l i ≠ i) :
    siftDownMin k l i = siftDownMin k (swapL l i (minChildSel k l i)) (minChildSel k l i) := by
  rw [siftDownMin]
  simp [h]

theorem siftDownMax_step (k : Nat) (l : List Result) (i : Nat)
    (h : maxChildSel k l i ≠ i) :
    siftDownMax k l i = siftDownMax k (swapL l i (maxChildSel k l i)) (maxChildSel k l i) := by
  rw [siftDownMax]
  simp [h]

theorem siftDownMin_spec (k : Nat) (l : List Result) (i : Nat) (h : SdInvMin k l i) :
    IsMinHeap (siftDownMin k l i) ∧
      ((siftDownMin k l i : List Result) : Multiset Result) = (l : Multiset Result) ∧
      (siftDownMin k l i).length = l.length := by
  induction l, i using siftDownMin.induct k with
  | case1 l i hstop =>
    rw [siftDownMin_stop k l i hstop]
    exact ⟨sdInvMin_heap_of_stop k l i h hstop, rfl, rfl⟩
  | case2 l i hne ih =>
    rw [siftDownMin_step k l i hne]
    have hil : i < l.length := by rw [h.len]; exact h.bounded
    have hsl : minChildSel k l i < l.length := by
      rw [h.len]
      exact (minChildSel_ne k l i hne).2.1
    obtain ⟨ha, hb, hc⟩ := ih (sdInvMin_swap k l i h hne)
    refine ⟨ha, ?_, ?_⟩
    · rw [hb, mset_swapL l i (minChildSel k l i) hil hsl]
    · rw [hc, length_swapL]

/-! ## Heap machinery: push -/

theorem scoreAt_append_lt (l l2 : List Result) (m : Nat) (hm : m < l.length) :
    scoreAt (l ++ l2) m = scoreAt l m := by
  unfold scoreAt
  rw [List.getD_append _ _ _ _ hm]

theorem suInvMin_append (l : List Result) (x : Result) (hl : IsMinHeap l) :
    SuInvMin (l ++ [x]) l.length := by
  refine ⟨by simp, ?_, ?_⟩
  · intro c hc hcl hci
    have hclen : c < l.length := by
      simp only [List.length_append, List.length_singleton] at hcl
      omega
    rw [scoreAt_append_lt l [x] c hclen, scoreAt_append_lt l [x] ((c - 1) / 2) (by omega)]
    exact hl c hc hclen
  · intro c hc hcl hcp
    simp only [List.length_append, List.length_singleton] at hcl
    omega

theorem pushMin_insert_spec (k : Nat) (l : List Result) (x : Result)
    (hl : IsMinHeap l) (hlen : l.length < k) :
    IsMinHeap (pushMin k l x) ∧
      ((pushMin k l x : List Result) : Multiset Result) = (l : Multiset Result) + {x} ∧
      (pushMin k l x).length = l.length + 1 := by
  rw [pushMin_insert k l x hlen]
  obtain ⟨ha, hb, hc⟩ := siftUpMin_spec (l ++ [x]) l.length (suInvMin_append l x hl)
  refine ⟨ha, ?_, ?_⟩
  · rw [hb, ← Multiset.coe_singleton, ← Multiset.coe_add]
  · rw [hc]
    simp

theorem sdInvMin_root_replace (k : Nat) (l : List Result) (x : Result)
    (hl : IsMinHeap l) (hlen : l.length = k) (hk : 0 < k) :
    SdInvMin k (l.set 0 x) 0 := by
  have hval : ∀ m, m ≠ 0 → scoreAt (l.set 0 x) m = scoreAt l m := by
    intro m hm
    unfold scoreAt
    rw [List.getD_eq_getElem?_getD, List.getElem?_set_ne (fun h => hm h.symm),
      ← List.getD_eq_getElem?_getD]
  refine ⟨by rw [List.length_set]; exact hlen, hk, ?_, ?_⟩
  · intro c hc hck hcp
    rw [hval c (by omega), hval ((c - 1) / 2) hcp]
    exact hl c hc (by omega)
  · intro h0
    omega

theorem pushMin_evict_spec (k : Nat) (l : List Result) (x : Result)
    (hl : IsMinHeap l) (hlen : l.length = k) (hk : 0 < k)
    (hroot : scoreAt l 0 < x.score) :
    IsMinHeap (pushMin k l x) ∧
      ((pushMin k l x : List Result) : Multiset Result) = ((l.set 0 x : List Result) : Multiset Result) ∧
      (pushMin k l x).length = k := by
  rw [pushMin_evict k l x (by omega) hroot]
  obtain ⟨ha, hb, hc⟩ := siftDownMin_spec k (l.set 0 x) 0
    (sdInvMin_root_replace k l x hl hlen hk)
  refine ⟨ha, hb, ?_⟩
  rw [hc, List.length_set, hlen]

/-! ## Heap machinery: the selection invariant -/

theorem keepInvMin_start (k : Nat) : keepInvMin k 0 [] := by
  refine ⟨?_, by simp, by simp, ?_⟩
  · intro c hc hcl
    simp at hcl
  · intro d hd s hs
    simp at hs

theorem pushMin_keepInv (k : Nat) (P : Multiset Result) (l : List Result) (x : Result)
    (h : keepInvMin k P l) : keepInvMin k (x ::ₘ P) (pushMin k l x) := by
  obtain ⟨hheap, hlen, hle, hdom⟩ := h
  have hcoe : Multiset.card (l : Multiset Result) = l.length := by simp
  by_cases hins : l.length < k
  · have hcard : Multiset.card P = l.length := by
      rcases Nat.le_total k (Multiset.card P) with hkc | hkc
      · rw [min_eq_left hkc] at hlen
        omega
      · rw [min_eq_right hkc] at hlen
        omega
    have hPl : (l : Multiset Result) = P :=
      Multiset.eq_of_le_of_card_le hle (by rw [hcard, hcoe])
    obtain ⟨ha, hb, hc⟩ := pushMin_insert_spec k l x hheap hins
    refine ⟨ha, ?_, ?_, ?_⟩
    · rw [hc, Multiset.card_cons, hcard, min_eq_right (by omega)]
    · rw [hb]
      calc (l : Multiset Result) + {x} ≤ P + {x} := add_le_add_right hle _
      _ = x ::ₘ P := by rw [add_comm, Multiset.singleton_add]
    · intro d hd s hs
      exfalso
      rw [hb, hPl] at hd
      have hzero : x ::ₘ P - (P + {x}) = 0 := by
        rw [add_comm, Multiset.singleton_add, tsub_self]
      rw [hzero] at hd
      exact Multiset.not_mem_zero d hd
  · have hlk : l.length = k := by
      rcases Nat.le_total k (Multiset.card P) with hkc | hkc
      · rw [min_eq_left hkc] at hlen
        omega
      · rw [min_eq_right hkc] at hlen
        omega
    have hkP : k ≤ Multiset.card P := by
      rcases Nat.le_total k (Multiset.card P) with hkc | hkc
      · exact hkc
      · rw [min_eq_right hkc] at hlen
        omega
    rcases Nat.eq_zero_or_pos k with hk0 | hk0
    · subst hk0
      have hl0 : l = [] := List.length_eq_zero.mp (by omega)
      subst hl0
      have hres : pushMin 0 [] x = [] := by
        unfold pushMin
        rw [if_neg (by omega)]
        split
        · rw [show ([] : List Result).set 0 x = [] from rfl]
          rw [siftDownMin_stop 0 [] 0 ?hsel]
          case hsel =>
            unfold minChildSel
            dsimp only
            rw [if_neg (fun hcond => by omega), if_neg (fun hcond => by omega)]
        · rfl
      rw [hres]
      refine ⟨hheap, by simp, by simp, ?_⟩
      intro d hd s hs
      simp at hs
    · by_cases hroot : scoreAt l 0 < x.score
      · obtain ⟨a, t, rfl⟩ : ∃ a t, l = a :: t := by
          cases l with
          | nil => simp at hlk; omega
          | cons a t => exact ⟨a, t, rfl⟩
        obtain ⟨ha, hb, hc⟩ := pushMin_evict_spec k (a :: t) x hheap hlk hk0 hroot
        have hset : (a :: t).set 0 x = x :: t := rfl
        rw [hset] at hb
        have hb2 : ((pushMin k (a :: t) x : List Result) : Multiset Result) =
            x ::ₘ (t : Multiset Result) := by
          rw [hb, Multiset.cons_coe]
        have htP : (t : Multiset Result) ≤ P := by
          calc (t : Multiset Result) ≤ a ::ₘ (t : Multiset Result) := Multiset.le_cons_self _ _
          _ = ((a :: t : List Result) : Multiset Result) := Multiset.cons_coe a t
          _ ≤ P := hle
        have haP : a ∈ P - (t : Multiset Result) := by
          have hcnt : Multiset.count a ((a :: t : List Result) : Multiset Result) ≤
              Multiset.count a P := Multiset.le_iff_count.mp hle a
          rw [← Multiset.cons_coe, Multiset.count_cons_self] at hcnt
          have : 0 < Multiset.count a (P - (t : Multiset Result)) := by
            rw [Multiset.count_sub]
            omega
          exact Multiset.count_pos.mp this
        have hsplit : P - (t : Multiset Result) =
            (P - ((a :: t : List Result) : Multiset Result)) + {a} := by
          have h1 : P - ((a :: t : List Result) : Multiset Result) =
              (P - (t : Multiset Result)) - {a} := by
            rw [← Multiset.cons_coe, ← Multiset.singleton_add, tsub_add_eq_tsub_tsub_swap]
          rw [h1, tsub_add_cancel_of_le (Multiset.singleton_le.mpr haP)]
        refine ⟨ha, ?_, ?_, ?_⟩
        · rw [hc, Multiset.card_cons, min_eq_left (by omega)]
        · rw [hb2]
          exact Multiset.cons_le_cons x htP
        · intro d hd s hs
          rw [hb2] at hd
          have hs3 : s ∈ x ::ₘ (t : Multiset Result) := by
            rw [← hb2]
            exact Multiset.mem_coe.mpr hs
          have hd2 : d ∈ P - (t : Multiset Result) := by
            rw [← Multiset.singleton_add, ← Multiset.singleton_add,
              add_tsub_add_eq_tsub_left] at hd
            exact hd
          rw [hsplit] at hd2
          have hroot_a : scoreAt (a :: t) 0 = a.score := rfl
          rcases Multiset.mem_add.mp hd2 with hd3 | hd3
          · rcases Multiset.mem_cons.mp hs3 with hs2 | hs2
            · subst hs2
              have := hdom d hd3 a (by simp)
              rw [hroot_a] at hroot
              linarith
            · exact hdom d hd3 s (by right; exact hs2)
          · rw [Multiset.mem_singleton.mp hd3]
            rcases Multiset.mem_cons.mp hs3 with hs2 | hs2
            · subst hs2
              rw [← hroot_a]
              exact le_of_lt hroot
            · have := isMinHeap_root_le_mem (a :: t) hheap s (by right; exact hs2)
              rw [hroot_a] at this
              exact this
      · rw [pushMin_keep k l x (by omega) hroot]
        refine ⟨hheap, ?_, ?_, ?_⟩
        · rw [hlk, Multiset.card_cons, min_eq_left (by omega)]
        · exact le_trans hle (Multiset.le_cons_self P x)
        · intro d hd s hs
          rw [← Multiset.singleton_add, add_tsub_assoc_of_le hle] at hd
          rcases Multiset.mem_add.mp hd with hd2 | hd2
          · rw [Multiset.mem_singleton.mp hd2]
            exact le_trans (not_lt.mp hroot) (isMinHeap_root_le_mem l hheap s hs)
          · exact hdom d hd2 s hs

theorem foldl_pushMin_keepInv (k : Nat) :
    ∀ (ps : List Result) (P : Multiset Result) (l : List Result),
      keepInvMin k P l → keepInvMin k (P + (ps : Multiset Result)) (ps.foldl (pushMin k) l) := by
  intro ps
  induction ps with
  | nil =>
    intro P l h
    simpa using h
  | cons x ps ih =>
    intro P l h
    rw [List.foldl_cons]
    have h2 := ih (x ::ₘ P) (pushMin k l x) (pushMin_keepInv k P l x h)
    have heq : (x ::ₘ P) + (ps : Multiset Result) = P + ((x :: ps : List Result) : Multiset Result) := by
      rw [← Multiset.cons_coe, Multiset.cons_add, Multiset.add_cons]
    rwa [heq] at h2

theorem foldl_pushMin_spec (k : Nat) (ps : List Result) :
    keepInvMin k (ps : Multiset Result) (ps.foldl (pushMin k) []) := by
  have := foldl_pushMin_keepInv k ps 0 [] (keepInvMin_start k)
  simpa using this

/-! ## Heap machinery: the max direction by score negation -/

theorem negR_negR (r : Result) : negR (negR r) = r := by
  simp [negR]

theorem negL_negL (l : List Result) : negL (negL l) = l := by
  unfold negL
  rw [List.map_map]
  have h : negR ∘ negR = id := funext fun r => negR_negR r
  rw [h, List.map_id]

theorem negR_default : negR default = default := by
  show negR ⟨0, 0⟩ = ⟨0, 0⟩
  simp [negR]

theorem getD_negL (l : List Result) (m : Nat) :
    (negL l).getD m default = negR (l.getD m default) := by
  unfold negL
  conv_lhs => rw [← negR_default]
  exact List.getD_map l default negR

theorem scoreAt_negL (l : List Result) (m : Nat) :
    scoreAt (negL l) m = -(scoreAt l m) := by
  unfold scoreAt
  rw [getD_negL]
  rfl

theorem length_negL (l : List Result) : (negL l).length = l.length := by
  unfold negL
  exact List.length_map l negR

theorem negL_append (l t : List Result) : negL (l ++ t) = negL l ++ negL t := by
  unfold negL
  exact List.map_append negR l t

theorem set_negL (l : List Result) (m : Nat) (x : Result) :
    (negL l).set m (negR x) = negL (l.set m x) := by
  unfold negL
  rw [List.map_set]

theorem swapL_negL (l : List Result) (i j : Nat) :
    swapL (negL l) i j = negL (swapL l i j) := by
  unfold swapL
  rw [getD_negL, getD_negL]
  unfold negL
  rw [List.map_set, List.map_set]

theorem siftUpMax_negL (i : Nat) : ∀ (l : List Result),
    siftUpMax l i = negL (siftUpMin (negL l) i) := by
  induction i using Nat.strong_induction_on with
  | _ i ih =>
    intro l
    rw [siftUpMax, siftUpMin]
    by_cases h0 : i = 0
    · rw [if_pos h0, if_pos h0, negL_negL]
    · rw [if_neg h0, if_neg h0]
      by_cases hc : scoreAt l i ≤ scoreAt l ((i - 1) / 2)
      · have hc2 : scoreAt (negL l) ((i - 1) / 2) ≤ scoreAt (negL l) i := by
          rw [scoreAt_negL, scoreAt_negL]
          linarith
        rw [if_pos hc, if_pos hc2, negL_negL]
      · have hc2 : ¬ scoreAt (negL l) ((i - 1) / 2) ≤ scoreAt (negL l) i := by
          rw [scoreAt_negL, scoreAt_negL]
          intro h2
          exact hc (by linarith)
        rw [if_neg hc, if_neg hc2, swapL_negL]
        exact ih ((i - 1) / 2) (by omega) (swapL l ((i - 1) / 2) i)

theorem maxChildSel_negL (k : Nat) (l : List Result) (i : Nat) :
    maxChildSel k l i = minChildSel k (negL l) i := by
  unfold maxChildSel minChildSel
  dsimp only
  simp only [scoreAt_negL, neg_lt_neg_iff]

theorem siftDownMax_negL (k : Nat) (l : List Result) (i : Nat) :
    siftDownMax k l i = negL (siftDownMin k (negL l) i) := by
  induction l, i using siftDownMax.induct k with
  | case1 l i hstop =>
    have hstop2 : minChildSel k (negL l) i = i := by
      rw [← maxChildSel_negL]
      exact hstop
    rw [siftDownMax_stop k l i hstop, siftDownMin_stop k (negL l) i hstop2, negL_negL]
  | case2 l i hne ih =>
    have hne2 : minChildSel k (negL l) i ≠ i := by
      rw [← maxChildSel_negL]
      exact hne
    rw [siftDownMax_step k l i hne, siftDownMin_step k (negL l) i hne2,
      ← maxChildSel_negL, swapL_negL]
    exact ih

theorem pushMax_negL (k : Nat) (l : List Result) (x : Result) :
    pushMax k l x = negL (pushMin k (negL l) (negR x)) := by
  unfold pushMax pushMin
  rw [length_negL]
  by_cases h1 : l.length < k
  · rw [if_pos h1, if_pos h1, siftUpMax_negL]
    rw [show negL l ++ [negR x] = negL (l ++ [x]) from by rw [negL_append]; rfl]
  · rw [if_neg h1, if_neg h1]
    by_cases h2 : x.score < scoreAt l 0
    · have h2b : scoreAt (negL l) 0 < (negR x).score := by
        rw [scoreAt_negL]
        show -(scoreAt l 0) < -(x.score)
        linarith
      rw [if_pos h2, if_pos h2b, set_negL, siftDownMax_negL]
    · have h2b : ¬ scoreAt (negL l) 0 < (negR x).score := by
        rw [scoreAt_negL]
        show ¬ -(scoreAt l 0) < -(x.score)
        intro h3
        exact h2 (by linarith)
      rw [if_neg h2, if_neg h2b, negL_negL]

theorem foldl_pushMax_negL (k : Nat) : ∀ (ps : List Result) (acc : List Result),
    ps.foldl (pushMax k) acc = negL ((ps.map negR).foldl (pushMin k) (negL acc)) := by
  intro ps
  induction ps with
  | nil =>
    intro acc
    rw [List.map_nil, List.foldl_nil, List.foldl_nil, negL_negL]
  | cons x ps ih =>
    intro acc
    rw [List.foldl_cons, List.map_cons, List.foldl_cons, ih (pushMax k acc x),
      pushMax_negL k acc x, negL_negL]

theorem multiset_negR_negR (s : Multiset Result) :
    Multiset.map negR (Multiset.map negR s) = s := by
  rw [Multiset.map_map]
  have h : negR ∘ negR = id := funext fun r => negR_negR r
  rw [h, Multiset.map_id]

theorem map_negR_sub (s t : Multiset Result) (h : t ≤ s) :
    Multiset.map negR (s - t) = Multiset.map negR s - Multiset.map negR t := by
  obtain ⟨u, rfl⟩ := Multiset.le_iff_exists_add.mp h
  rw [add_tsub_cancel_left, Multiset.map_add, add_tsub_cancel_left]

theorem foldl_pushMax_spec (k : Nat) (ps : List Result) :
    SelMax k (ps : Multiset Result) ((ps.foldl (pushMax k) [] : List Result) : Multiset Result) := by
  obtain ⟨hheap, hlen, hle, hdom⟩ := foldl_pushMin_spec k (ps.map negR)
  have hfold : ps.foldl (pushMax k) [] = negL ((ps.map negR).foldl (pushMin k) []) :=
    foldl_pushMax_negL k ps []
  rw [hfold]
  have hcoe : ((negL ((ps.map negR).foldl (pushMin k) []) : List Result) : Multiset Result)
      = Multiset.map negR (((ps.map negR).foldl (pushMin k) [] : List Result) : Multiset Result) :=
    (Multiset.map_coe negR ((ps.map negR).foldl (pushMin k) [])).symm
  have hle2 : ((negL ((ps.map negR).foldl (pushMin k) []) : List Result) : Multiset Result)
      ≤ (ps : Multiset Result) := by
    rw [hcoe]
    have h2 : Multiset.map negR (((ps.map negR).foldl (pushMin k) [] : List Result) : Multiset Result)
        ≤ Multiset.map negR ((ps.map negR : List Result) : Multiset Result) :=
      Multiset.map_le_map hle
    rw [← Multiset.map_coe negR ps, multiset_negR_negR] at h2
    exact h2
  refine ⟨hle2, ?_, ?_⟩
  · rw [Multiset.coe_card, length_negL, hlen, Multiset.coe_card, Multiset.coe_card,
      List.length_map]
  · intro d hd s hs
    obtain ⟨s0, hs0, rfl⟩ := List.mem_map.mp hs
    have hd2 : negR d ∈ ((ps.map negR : List Result) : Multiset Result)
        - (((ps.map negR).foldl (pushMin k) [] : List Result) : Multiset Result) := by
      have hmem : negR d ∈ Multiset.map negR ((ps : Multiset Result)
          - ((negL ((ps.map negR).foldl (pushMin k) []) : List Result) : Multiset Result)) :=
        Multiset.mem_map_of_mem negR hd
      rw [map_negR_sub _ _ hle2, hcoe, multiset_negR_negR, Multiset.map_coe negR ps] at hmem
      exact hmem
    have := hdom (negR d) hd2 s0 hs0
    show (negR s0).score ≤ d.score
    unfold negR at this ⊢
    dsimp only at this ⊢
    linarith

/-- C6: for every sequence of pushes into a capacity-k most-similar (min) heap
the fold keeps min(k, number pushed) of the pushed pairs, every discarded
score is at most every kept score (so the kept scores are the largest
pushed), and a full heap only admits a new pair when its score strictly
exceeds the root, so a tie keeps the earlier pair; symmetrically the
least-similar (max) heap keeps the smallest scores with admission rule
new < root. -/
theorem C6_bounded_heaps (k : Nat) (ps : List Result) :
    (ps.foldl (pushMin k) []).length = min k ps.length ∧
    ((ps.foldl (pushMin k) [] : List Result) : Multiset Result) ≤ (ps : Multiset Result) ∧
    (∀ d ∈ (ps : Multiset Result) - ((ps.foldl (pushMin k) [] : List Result) : Multiset Result),
      ∀ s ∈ ps.foldl (pushMin k) [], d.score ≤ s.score) ∧
    (ps.foldl (pushMax k) []).length = min k ps.length ∧
    ((ps.foldl (pushMax k) [] : List Result) : Multiset Result) ≤ (ps : Multiset Result) ∧
    (∀ d ∈ (ps : Multiset Result) - ((ps.foldl (pushMax k) [] : List Result) : Multiset Result),
      ∀ s ∈ ps.foldl (pushMax k) [], s.score ≤ d.score) ∧
    (∀ (l : List Result) (x : Result), ¬ l.length < k → ¬ scoreAt l 0 < x.score →
      pushMin k l x = l) ∧
    (∀ (l : List Result) (x : Result), ¬ l.length < k → ¬ x.score < scoreAt l 0 →
      pushMax k l x = l) := by
  obtain ⟨hheap, hlen, hle, hdom⟩ := foldl_pushMin_spec k ps
  obtain ⟨hle2, hlen2, hdom2⟩ := foldl_pushMax_spec k ps
  refine ⟨?_, hle, hdom, ?_, hle2, hdom2, ?_, ?_⟩
  · rw [hlen, Multiset.coe_card]
  · rw [← Multiset.coe_card (ps.foldl (pushMax k) []), hlen2, Multiset.coe_card]
  · intro l x h1 h2
    exact pushMin_keep k l x h1 h2
  · intro l x h1 h2
    exact pushMax_keep k l x h1 h2

/-! ## Claim C7: bridging the search folds to candidate lists -/

theorem foldl_step_filterMap (g : List Result → Result → List Result)
    (f : Nat → Option Result) (step : List Result → Nat → List Result)
    (hstep : ∀ acc i, step acc i = (match f i with | none => acc | some r => g acc r)) :
    ∀ (ixs : List Nat) (acc : List Result),
      ixs.foldl step acc = (ixs.filterMap f).foldl g acc := by
  intro ixs
  induction ixs with
  | nil =>
    intro acc
    rfl
  | cons i ixs ih =>
    intro acc
    rw [List.foldl_cons, List.filterMap_cons, hstep acc i]
    cases hf : f i with
    | none => exact ih acc
    | some r => exact ih (g acc r)

theorem searchSingleHeap_eq_min (s : EStore) (q : List ℚ) (n : Nat) :
    searchSingleHeap s q n true = (stCands s q).foldl (pushMin n) [] := by
  unfold searchSingleHeap stCands
  exact foldl_step_filterMap (pushMin n) _ (stStep s q n true)
    (fun acc i => by
      unfold stStep
      cases h : isZeroSlot s i
      · simp [h]
      · simp [h]) _ []

theorem searchSingleHeap_eq_max (s : EStore) (q : List ℚ) (n : Nat) :
    searchSingleHeap s q n false = (stCands s q).foldl (pushMax n) [] := by
  unfold searchSingleHeap stCands
  exact foldl_step_filterMap (pushMax n) _ (stStep s q n false)
    (fun acc i => by
      unfold stStep
      cases h : isZeroSlot s i
      · simp [h]
      · simp [h]) _ []

theorem workerHeap_eq_min (s : EStore) (q : List ℚ) (n : Nat) (a b : Nat) :
    workerHeap s q n true a b = (mtCandsRange s q a (b - a)).foldl (pushMin n) [] := by
  unfold workerHeap mtCandsRange
  exact foldl_step_filterMap (pushMin n) _ (mtStep s q n true)
    (fun acc i => by
      unfold mtStep
      cases h : isZeroSlot s i
      · simp [h]
      · simp [h]) _ []

theorem workerHeap_eq_max (s : EStore) (q : List ℚ) (n : Nat) (a b : Nat) :
    workerHeap s q n false a b = (mtCandsRange s q a (b - a)).foldl (pushMax n) [] := by
  unfold workerHeap mtCandsRange
  exact foldl_step_filterMap (pushMax n) _ (mtStep s q n false)
    (fun acc i => by
      unfold mtStep
      cases h : isZeroSlot s i
      · simp [h]
      · simp [h]) _ []

theorem stCands_eq_mtCands (s : EStore) (q : List ℚ)
    (hq : fltEps < normQ q s.dims)
    (he : ∀ i, i < countS s → isZeroSlot s i = false → fltEps < candNorm s i) :
    stCands s q = mtCands s q := by
  have heps : (0 : ℚ) < fltEps := by norm_num [fltEps]
  unfold stCands mtCands
  apply List.filterMap_congr
  intro i hi
  rw [List.mem_range] at hi
  cases hz : isZeroSlot s i
  · have hen := he i hi hz
    have hsc : stScore s q i = mtScore s q i := by
      unfold stScore mtScore simST simMT
      rw [if_pos ⟨hq, hen⟩, if_pos ⟨lt_trans heps hq, lt_trans heps hen⟩]
    simp only [hz, Bool.false_eq_true, if_false, hsc]
  · simp [hz]

theorem taskStart_zero (total T : Nat) : taskStart total T 0 = 0 := by
  simp [taskStart]

theorem taskStart_le_taskEnd (total T t : Nat) :
    taskStart total T t ≤ taskEnd total T t := by
  unfold taskEnd
  exact le_trans (Nat.le_add_right _ _) (Nat.le_add_right _ _)

theorem taskStart_succ (total T t : Nat) :
    taskStart total T (t + 1) = taskEnd total T t := by
  unfold taskEnd taskStart
  rw [add_mul, one_mul]
  rcases Nat.lt_or_ge t (total % T) with h | h
  · rw [if_pos h, Nat.min_eq_left (by omega), Nat.min_eq_left (by omega)]
    omega
  · rw [if_neg (by omega), Nat.min_eq_right h, Nat.min_eq_right (by omega)]
    omega

theorem taskStart_last (total T : Nat) (hT : 0 < T) : taskStart total T T = total := by
  unfold taskStart
  have h1 : total % T < T := Nat.mod_lt total hT
  have h2 := Nat.div_add_mod total T
  omega

theorem mtCandsRange_append (s : EStore) (q : List ℚ) (a m p : Nat) :
    mtCandsRange s q a m ++ mtCandsRange s q (a + m) p = mtCandsRange s q a (m + p) := by
  unfold mtCandsRange
  rw [← List.filterMap_append]
  congr 1
  have h := List.range'_append a m p 1
  rw [one_mul] at h
  rw [Nat.add_comm m p, ← h]

theorem mtCands_flatten (s : EStore) (q : List ℚ) (T : Nat) (hT : 0 < T) :
    ((List.range T).map (fun t => mtCandsRange s q (taskStart (countS s) T t)
      (taskEnd (countS s) T t - taskStart (countS s) T t))).flatten = mtCands s q := by
  have key : ∀ m, ((List.range m).map (fun t => mtCandsRange s q (taskStart (countS s) T t)
      (taskEnd (countS s) T t - taskStart (countS s) T t))).flatten
        = mtCandsRange s q 0 (taskStart (countS s) T m) := by
    intro m
    induction m with
    | zero =>
      rw [taskStart_zero]
      simp [mtCandsRange]
    | succ m ih =>
      rw [List.range_succ, List.map_append, List.flatten_append, ih]
      simp only [List.map_cons, List.map_nil, List.flatten_cons, List.flatten_nil,
        List.append_nil]
      have h2 := mtCandsRange_append s q 0 (taskStart (countS s) T m)
        (taskEnd (countS s) T m - taskStart (countS s) T m)
      rw [Nat.zero_add] at h2
      rw [h2, taskStart_succ]
      congr 1
      have h3 := taskStart_le_taskEnd (countS s) T m
      omega
  have h := key T
  rw [taskStart_last (countS s) T hT] at h
  rw [h]
  unfold mtCandsRange mtCands
  rw [List.range_eq_range']

/-- Witness for C6 at capacity 2: three pushes leave two pairs, and a full
heap rejects a tying score in both directions. -/
theorem C6_bounded_heaps_witness :
    (([⟨0, 5⟩, ⟨1, 1⟩, ⟨2, 3⟩] : List Result).foldl (pushMin 2) []).length = 2 ∧
    pushMin 2 [⟨4, 3⟩, ⟨5, 7⟩] ⟨6, 3⟩ = [⟨4, 3⟩, ⟨5, 7⟩] ∧
    pushMax 2 [⟨4, 3⟩, ⟨5, 1⟩] ⟨6, 3⟩ = [⟨4, 3⟩, ⟨5, 1⟩] := by
  have h := C6_bounded_heaps 2 [⟨0, 5⟩, ⟨1, 1⟩, ⟨2, 3⟩]
  refine ⟨by simpa using h.1, ?_, ?_⟩
  · exact h.2.2.2.2.2.2.1 [⟨4, 3⟩, ⟨5, 7⟩] ⟨6, 3⟩ (by simp) (by simp [scoreAt])
  · exact h.2.2.2.2.2.2.2 [⟨4, 3⟩, ⟨5, 1⟩] ⟨6, 3⟩ (by simp) (by simp [scoreAt])

/-! ## Claim C7: the merge of the task-local heaps is itself a selection -/

theorem mset_add_sub_add (a a2 b b2 : Multiset Result) (ha : a2 ≤ a) (hb : b2 ≤ b) :
    (a + b) - (a2 + b2) = (a - a2) + (b - b2) := by
  obtain ⟨u, rfl⟩ := Multiset.le_iff_exists_add.mp ha
  obtain ⟨v, rfl⟩ := Multiset.le_iff_exists_add.mp hb
  rw [add_add_add_comm, add_tsub_cancel_left, add_tsub_cancel_left, add_tsub_cancel_left]

theorem mset_sub_chain (C F M : Multiset Result) (h1 : M ≤ F) (h2 : F ≤ C) :
    C - M = (C - F) + (F - M) := by
  obtain ⟨u, rfl⟩ := Multiset.le_iff_exists_add.mp h1
  obtain ⟨v, rfl⟩ := Multiset.le_iff_exists_add.mp h2
  rw [add_tsub_cancel_left, add_assoc, add_tsub_cancel_left, add_tsub_cancel_left,
    add_comm u v]

theorem foldl_pushMin_selMin (n : Nat) (ps : List Result) :
    SelMin n (ps : Multiset Result) ((ps.foldl (pushMin n) [] : List Result) : Multiset Result) := by
  obtain ⟨hh, hl, hle, hdom⟩ := foldl_pushMin_spec n ps
  exact ⟨hle, by rw [Multiset.coe_card, hl],
    fun d hd s hs => hdom d hd s (Multiset.mem_coe.mp hs)⟩

theorem forall2_keepInv (n : Nat) (CLs : List (List Result)) :
    List.Forall₂ (fun c L => keepInvMin n (c : Multiset Result) L) CLs
      (CLs.map (fun c => c.foldl (pushMin n) [])) := by
  induction CLs with
  | nil => exact List.Forall₂.nil
  | cons c CLs ih => exact List.Forall₂.cons (foldl_pushMin_spec n c) ih

theorem min_n_add_min (n a b2 b : Nat) (hb : min n b2 = min n b) :
    min n (min n a + b2) = min n (a + b) := by
  rcases Nat.le_total n a with h1 | h1
  · rw [Nat.min_eq_left h1, Nat.min_eq_left (Nat.le_add_right n b2),
      Nat.min_eq_left (le_trans h1 (Nat.le_add_right a b))]
  · rw [Nat.min_eq_right h1]
    rcases Nat.le_total n b2 with h2 | h2
    · have hnb : n ≤ b := by
        rw [Nat.min_eq_left h2] at hb
        rcases Nat.le_total n b with h3 | h3
        · exact h3
        · rw [Nat.min_eq_right h3] at hb
          exact le_of_eq hb
      rw [Nat.min_eq_left (le_trans h2 (Nat.le_add_left b2 a)),
        Nat.min_eq_left (le_trans hnb (Nat.le_add_left b a))]
    · rw [Nat.min_eq_right h2] at hb
      rcases Nat.le_total n b with h3 | h3
      · rw [Nat.min_eq_left h3] at hb
        rw [hb, Nat.min_eq_left (Nat.le_add_left n a),
          Nat.min_eq_left (le_trans h3 (Nat.le_add_left b a))]
      · rw [Nat.min_eq_right h3] at hb
        rw [hb]

/-- Aggregated facts of per-task local heaps Fs for task candidate lists CLs:
the flattened locals sit inside the flattened candidates, capping at n
preserves the min-n count, and a candidate discarded by its own task is
dominated by a full local heap contained in the flattened locals. -/
theorem locals_aggregate (n : Nat) (CLs Fs : List (List Result))
    (h : List.Forall₂ (fun c L => keepInvMin n (c : Multiset Result) L) CLs Fs) :
    ((Fs.flatten : List Result) : Multiset Result)
        ≤ ((CLs.flatten : List Result) : Multiset Result) ∧
    min n Fs.flatten.length = min n CLs.flatten.length ∧
    ∀ d ∈ ((CLs.flatten : List Result) : Multiset Result)
        - ((Fs.flatten : List Result) : Multiset Result),
      ∃ L : List Result,
        ((L : List Result) : Multiset Result)
            ≤ ((Fs.flatten : List Result) : Multiset Result)
          ∧ L.length = n ∧ ∀ x ∈ L, d.score ≤ x.score := by
  induction CLs generalizing Fs with
  | nil =>
    cases h
    refine ⟨le_refl _, rfl, ?_⟩
    intro d hd
    simp at hd
  | cons c CLs2 ih0 =>
    cases h with
    | @cons _ L _ Fs2 h1 h2 =>
    obtain ⟨ih1, ih2, ih3⟩ := ih0 Fs2 h2
    obtain ⟨hheap, hlen, hle, hdom⟩ := h1
    have hlc : L.length = min n c.length := by
      rw [hlen, Multiset.coe_card]
    refine ⟨?_, ?_, ?_⟩
    · rw [List.flatten_cons, List.flatten_cons, ← Multiset.coe_add, ← Multiset.coe_add]
      exact add_le_add hle ih1
    · rw [List.flatten_cons, List.flatten_cons, List.length_append, List.length_append,
        hlc]
      exact min_n_add_min n c.length Fs2.flatten.length CLs2.flatten.length ih2
    · intro d hd
      rw [List.flatten_cons, List.flatten_cons, ← Multiset.coe_add, ← Multiset.coe_add,
        mset_add_sub_add _ _ _ _ hle ih1] at hd
      rcases Multiset.mem_add.mp hd with hd2 | hd2
      · refine ⟨L, ?_, ?_, ?_⟩
        · rw [List.flatten_cons, ← Multiset.coe_add]
          exact Multiset.le_add_right _ _
        · have hpos : 0 < Multiset.card ((c : Multiset Result)
              - ((L : List Result) : Multiset Result)) :=
            Multiset.card_pos_iff_exists_mem.mpr ⟨d, hd2⟩
          have hcard := Multiset.card_sub hle
          rw [Multiset.coe_card, Multiset.coe_card] at hcard
          have hlt : L.length < c.length := by omega
          rcases Nat.le_total n c.length with h4 | h4
          · rw [hlc, Nat.min_eq_left h4]
          · rw [Nat.min_eq_right h4] at hlc
            omega
        · intro x hx
          exact hdom d hd2 x hx
      · obtain ⟨L2, hL1, hL2, hL3⟩ := ih3 d hd2
        refine ⟨L2, ?_, hL2, hL3⟩
        rw [List.flatten_cons, ← Multiset.coe_add]
        exact le_trans hL1 (Multiset.le_add_left _ _)

/-- The merge of per-task capacity-n min-heaps Fs into a fresh capacity-n
min-heap selects min(n, total candidates) of all the task candidates and
dominates everything discarded anywhere. -/
theorem merge_selMin_gen (n : Nat) (CLs Fs : List (List Result))
    (h : List.Forall₂ (fun c L => keepInvMin n (c : Multiset Result) L) CLs Fs) :
    SelMin n ((CLs.flatten : List Result) : Multiset Result)
      ((Fs.flatten.foldl (pushMin n) [] : List Result) : Multiset Result) := by
  obtain ⟨hA, hB, hC⟩ := locals_aggregate n CLs Fs h
  obtain ⟨hheap, hlen, hle, hdom⟩ := foldl_pushMin_spec n Fs.flatten
  refine ⟨le_trans hle hA, ?_, ?_⟩
  · rw [Multiset.coe_card, hlen, Multiset.coe_card, Multiset.coe_card]
    exact hB
  · intro d hd s hs
    have hsl := Multiset.mem_coe.mp hs
    rw [mset_sub_chain _ _ _ hle hA] at hd
    rcases Multiset.mem_add.mp hd with hd2 | hd2
    · obtain ⟨L, hL1, hL2, hL3⟩ := hC d hd2
      by_contra hcon
      push_neg at hcon
      have hLM : ((L : List Result) : Multiset Result)
          ≤ ((Fs.flatten.foldl (pushMin n) [] : List Result) : Multiset Result) := by
        rw [Multiset.le_iff_count]
        intro r
        by_contra hr
        push_neg at hr
        have hrL : r ∈ L := by
          have hpos : 0 < Multiset.count r ((L : List Result) : Multiset Result) := by omega
          exact Multiset.mem_coe.mp (Multiset.count_pos.mp hpos)
        have hrFM : r ∈ ((Fs.flatten : List Result) : Multiset Result)
            - ((Fs.flatten.foldl (pushMin n) [] : List Result) : Multiset Result) := by
          rw [← Multiset.count_pos, Multiset.count_sub]
          have hcF := Multiset.le_iff_count.mp hL1 r
          omega
        have hrs := hdom r hrFM s hsl
        have hds := hL3 r hrL
        linarith
      have hsL : s ∉ L := by
        intro hsl2
        have := hL3 s hsl2
        linarith
      have hsM : s ::ₘ ((L : List Result) : Multiset Result)
          ≤ ((Fs.flatten.foldl (pushMin n) [] : List Result) : Multiset Result) := by
        rw [Multiset.le_iff_count]
        intro r
        by_cases hr : r = s
        · subst hr
          rw [Multiset.count_cons_self]
          have h0 : Multiset.count r ((L : List Result) : Multiset Result) = 0 := by
            rw [Multiset.count_eq_zero]
            exact fun h3 => hsL (Multiset.mem_coe.mp h3)
          have h1 : 0 < Multiset.count r
              ((Fs.flatten.foldl (pushMin n) [] : List Result) : Multiset Result) :=
            Multiset.count_pos.mpr hs
          omega
        · rw [Multiset.count_cons_of_ne hr]
          exact Multiset.le_iff_count.mp hLM r
      have hcard := Multiset.card_le_card hsM
      rw [Multiset.card_cons, Multiset.coe_card, Multiset.coe_card, hL2] at hcard
      have hml : (Fs.flatten.foldl (pushMin n) []).length = min n Fs.flatten.length := by
        rw [hlen, Multiset.coe_card]
      omega
    · exact hdom d hd2 s hsl

/-- The merge instantiated at the locals computed by the per-task folds. -/
theorem merge_selMin (n : Nat) (CLs : List (List Result)) :
    SelMin n ((CLs.flatten : List Result) : Multiset Result)
      ((((CLs.map (fun c => c.foldl (pushMin n) [])).flatten).foldl (pushMin n) []
        : List Result) : Multiset Result) :=
  merge_selMin_gen n CLs (CLs.map (fun c => c.foldl (pushMin n) []))
    (forall2_keepInv n CLs)

/-! ## Claim C7: uniqueness of the selection under pairwise distinct scores -/

theorem selMin_unique_aux (n : Nat) (P K1 K2 : Multiset Result)
    (hdist : ∀ a ∈ P, ∀ b ∈ P, a ≠ b → a.score ≠ b.score)
    (h1 : SelMin n P K1) (h2 : SelMin n P K2)
    (r : Result) (hr : Multiset.count r K2 < Multiset.count r K1) : False := by
  obtain ⟨h1le, h1card, h1dom⟩ := h1
  obtain ⟨h2le, h2card, h2dom⟩ := h2
  have hx : ∃ x, Multiset.count x K1 < Multiset.count x K2 := by
    by_contra hno
    push_neg at hno
    have hle : K2 ≤ K1 := Multiset.le_iff_count.mpr hno
    have heq : K2 = K1 := Multiset.eq_of_le_of_card_le hle (by omega)
    rw [heq] at hr
    omega
  obtain ⟨x, hxc⟩ := hx
  have hrx : r ≠ x := by
    intro h
    rw [h] at hr
    omega
  have hcr : Multiset.count r P ≤ Multiset.count r P := le_refl _
  have hr1 := Multiset.le_iff_count.mp h1le r
  have hx2 := Multiset.le_iff_count.mp h2le x
  have hrK1 : r ∈ K1 := Multiset.count_pos.mp (by omega)
  have hxK2 : x ∈ K2 := Multiset.count_pos.mp (by omega)
  have hrP : r ∈ P := Multiset.count_pos.mp (by omega)
  have hxP : x ∈ P := Multiset.count_pos.mp (by omega)
  have hrPK2 : r ∈ P - K2 := by
    rw [← Multiset.count_pos, Multiset.count_sub]
    omega
  have hxPK1 : x ∈ P - K1 := by
    rw [← Multiset.count_pos, Multiset.count_sub]
    have := Multiset.le_iff_count.mp h1le x
    omega
  have hs1 := h2dom r hrPK2 x hxK2
  have hs2 := h1dom x hxPK1 r hrK1
  exact hdist r hrP x hxP hrx (le_antisymm hs1 hs2)

theorem selMin_unique (n : Nat) (P K1 K2 : Multiset Result)
    (hdist : ∀ a ∈ P, ∀ b ∈ P, a ≠ b → a.score ≠ b.score)
    (h1 : SelMin n P K1) (h2 : SelMin n P K2) : K1 = K2 := by
  by_contra hne
  have hx : (∃ r, Multiset.count r K2 < Multiset.count r K1) ∨
      (∃ r, Multiset.count r K1 < Multiset.count r K2) := by
    by_contra hno
    push_neg at hno
    obtain ⟨hno1, hno2⟩ := hno
    apply hne
    ext r
    exact le_antisymm (hno1 r) (hno2 r)
  rcases hx with ⟨r, hr⟩ | ⟨r, hr⟩
  · exact selMin_unique_aux n P K1 K2 hdist h1 h2 r hr
  · exact selMin_unique_aux n P K2 K1 hdist h2 h1 r hr

theorem scoresDistinct_coe (l : List Result) (h : ScoresDistinct l) :
    ∀ a ∈ (l : Multiset Result), ∀ b ∈ (l : Multiset Result),
      a ≠ b → a.score ≠ b.score := by
  intro a ha b hb hab
  unfold ScoresDistinct at h
  exact List.Pairwise.forall (fun x y hxy => Ne.symm hxy) h
    (Multiset.mem_coe.mp ha) (Multiset.mem_coe.mp hb) hab

theorem scoresDistinct_negL (l : List Result) (h : ScoresDistinct l) :
    ScoresDistinct (negL l) := by
  unfold ScoresDistinct at h ⊢
  unfold negL
  rw [List.pairwise_map]
  refine h.imp ?_
  intro a b hab
  unfold negR
  dsimp only
  intro h2
  exact hab (by linarith [neg_injective h2])

theorem negL_flatten (Ls : List (List Result)) :
    (Ls.map negL).flatten = negL Ls.flatten := by
  unfold negL
  rw [List.map_flatten]

/-! ## Claim C7: assembling the two search paths -/

theorem search_parity_min (s : EStore) (q : List ℚ) (n : Nat) (T : Nat) (hT : 0 < T)
    (hq : fltEps < normQ q s.dims)
    (he : ∀ i, i < countS s → isZeroSlot s i = false → fltEps < candNorm s i)
    (hd : ScoresDistinct (stCands s q)) :
    searchSingleIds s q n true = searchMultiIds s q n true T := by
  have hflat : ((List.range T).map (fun t => mtCandsRange s q (taskStart (countS s) T t)
      (taskEnd (countS s) T t - taskStart (countS s) T t))).flatten = mtCands s q :=
    mtCands_flatten s q T hT
  have hsm : stCands s q = mtCands s q := stCands_eq_mtCands s q hq he
  have hM : searchMultiHeap s q n true T
      = ((((List.range T).map (fun t => mtCandsRange s q (taskStart (countS s) T t)
          (taskEnd (countS s) T t - taskStart (countS s) T t))).map
            (fun c => c.foldl (pushMin n) [])).flatten).foldl (pushMin n) [] := by
    unfold searchMultiHeap
    have hloc : (List.range T).map (fun t =>
        workerHeap s q n true (taskStart (countS s) T t) (taskEnd (countS s) T t))
        = ((List.range T).map (fun t => mtCandsRange s q (taskStart (countS s) T t)
            (taskEnd (countS s) T t - taskStart (countS s) T t))).map
              (fun c => c.foldl (pushMin n) []) := by
      rw [List.map_map]
      apply List.map_congr_left
      intro t ht
      exact workerHeap_eq_min s q n _ _
    rw [hloc]
    rfl
  have hsel1 : SelMin n ((stCands s q : List Result) : Multiset Result)
      ((searchSingleHeap s q n true : List Result) : Multiset Result) := by
    rw [searchSingleHeap_eq_min s q n]
    exact foldl_pushMin_selMin n (stCands s q)
  have hsel2 : SelMin n ((stCands s q : List Result) : Multiset Result)
      ((searchMultiHeap s q n true T : List Result) : Multiset Result) := by
    rw [hM]
    have h := merge_selMin n ((List.range T).map (fun t => mtCandsRange s q
      (taskStart (countS s) T t) (taskEnd (countS s) T t - taskStart (countS s) T t)))
    rw [hflat, ← hsm] at h
    exact h
  have hdist := scoresDistinct_coe (stCands s q) hd
  have heq := selMin_unique n _ _ _ hdist hsel1 hsel2
  have hperm := Multiset.coe_eq_coe.mp heq
  unfold searchSingleIds searchMultiIds
  exact List.toFinset_eq_of_perm _ _ (hperm.map Result.id)

theorem search_parity_max (s : EStore) (q : List ℚ) (n : Nat) (T : Nat) (hT : 0 < T)
    (hq : fltEps < normQ q s.dims)
    (he : ∀ i, i < countS s → isZeroSlot s i = false → fltEps < candNorm s i)
    (hd : ScoresDistinct (stCands s q)) :
    searchSingleIds s q n false = searchMultiIds s q n false T := by
  have hflat : ((List.range T).map (fun t => mtCandsRange s q (taskStart (countS s) T t)
      (taskEnd (countS s) T t - taskStart (countS s) T t))).flatten = mtCands s q :=
    mtCands_flatten s q T hT
  have hsm : stCands s q = mtCands s q := stCands_eq_mtCands s q hq he
  have hH : searchSingleHeap s q n false
      = negL (((stCands s q).map negR).foldl (pushMin n) []) := by
    rw [searchSingleHeap_eq_max s q n]
    exact foldl_pushMax_negL n (stCands s q) []
  have hM : searchMultiHeap s q n false T
      = negL (((((List.range T).map (fun t => mtCandsRange s q (taskStart (countS s) T t)
          (taskEnd (countS s) T t - taskStart (countS s) T t))).map (List.map negR)).map
            (fun c => c.foldl (pushMin n) [])).flatten.foldl (pushMin n) []) := by
    unfold searchMultiHeap
    dsimp only
    have hloc : (List.range T).map (fun t =>
        workerHeap s q n false (taskStart (countS s) T t) (taskEnd (countS s) T t))
        = ((List.range T).map (fun t => mtCandsRange s q (taskStart (countS s) T t)
            (taskEnd (countS s) T t - taskStart (countS s) T t))).map
              (fun c => c.foldl (pushMax n) []) := by
      rw [List.map_map]
      apply List.map_congr_left
      intro t ht
      exact workerHeap_eq_max s q n _ _
    rw [hloc]
    have hmax : ((List.range T).map (fun t => mtCandsRange s q (taskStart (countS s) T t)
        (taskEnd (countS s) T t - taskStart (countS s) T t))).map
          (fun c => c.foldl (pushMax n) [])
        = ((((List.range T).map (fun t => mtCandsRange s q (taskStart (countS s) T t)
            (taskEnd (countS s) T t - taskStart (countS s) T t))).map (List.map negR)).map
              (fun c => c.foldl (pushMin n) [])).map negL := by
      rw [List.map_map, List.map_map, List.map_map, List.map_map]
      apply List.map_congr_left
      intro t ht
      exact foldl_pushMax_negL n _ []
    rw [hmax, negL_flatten]
    have h2 := foldl_pushMax_negL n (negL (((((List.range T).map
        (fun t => mtCandsRange s q (taskStart (countS s) T t)
          (taskEnd (countS s) T t - taskStart (countS s) T t))).map (List.map negR)).map
            (fun c => c.foldl (pushMin n) [])).flatten)) []
    have h3 : (negL (((((List.range T).map (fun t => mtCandsRange s q
        (taskStart (countS s) T t) (taskEnd (countS s) T t - taskStart (countS s) T t))).map
          (List.map negR)).map (fun c => c.foldl (pushMin n) [])).flatten)).map negR
        = ((((List.range T).map (fun t => mtCandsRange s q (taskStart (countS s) T t)
            (taskEnd (countS s) T t - taskStart (countS s) T t))).map (List.map negR)).map
              (fun c => c.foldl (pushMin n) [])).flatten :=
      negL_negL _
    rw [h3] at h2
    exact h2
  have hsel1 : SelMin n ((negL (stCands s q) : List Result) : Multiset Result)
      ((((stCands s q).map negR).foldl (pushMin n) [] : List Result) : Multiset Result) :=
    foldl_pushMin_selMin n ((stCands s q).map negR)
  have hsel2 : SelMin n ((negL (stCands s q) : List Result) : Multiset Result)
      ((((((List.range T).map (fun t => mtCandsRange s q (taskStart (countS s) T t)
          (taskEnd (countS s) T t - taskStart (countS s) T t))).map (List.map negR)).map
            (fun c => c.foldl (pushMin n) [])).flatten.foldl (pushMin n) []
        : List Result) : Multiset Result) := by
    have h := merge_selMin n (((List.range T).map (fun t => mtCandsRange s q
      (taskStart (countS s) T t) (taskEnd (countS s) T t - taskStart (countS s) T t))).map
        (List.map negR))
    have hfl2 : (((List.range T).map (fun t => mtCandsRange s q (taskStart (countS s) T t)
        (taskEnd (countS s) T t - taskStart (countS s) T t))).map (List.map negR)).flatten
        = negL (stCands s q) := by
      have hnl : ((List.range T).map (fun t => mtCandsRange s q (taskStart (countS s) T t)
          (taskEnd (countS s) T t - taskStart (countS s) T t))).map (List.map negR)
          = ((List.range T).map (fun t => mtCandsRange s q (taskStart (countS s) T t)
              (taskEnd (countS s) T t - taskStart (countS s) T t))).map negL := rfl
      rw [hnl, negL_flatten, hflat, ← hsm]
    rw [hfl2] at h
    exact h
  have hdist := scoresDistinct_coe (negL (stCands s q)) (scoresDistinct_negL _ hd)
  have heq := selMin_unique n _ _ _ hdist hsel1 hsel2
  have hperm := Multiset.coe_eq_coe.mp heq
  unfold searchSingleIds searchMultiIds
  rw [hH, hM]
  exact List.toFinset_eq_of_perm _ _ ((hperm.map negR).map Result.id)

/-- C7 (amended): when the query norm exceeds FLT_EPSILON, every non-zero
slot's norm exceeds FLT_EPSILON and the candidate scores are pairwise
distinct, the single-threaded and the multi-threaded search return the same
id set, for every heap capacity, direction flag and task count T >= 1. -/
theorem C7_search_thread_parity (s : EStore) (q : List ℚ) (n : Nat) (msim : Bool)
    (T : Nat) (hT : 0 < T)
    (hq : fltEps < normQ q s.dims)
    (he : ∀ i, i < countS s → isZeroSlot s i = false → fltEps < candNorm s i)
    (hd : ScoresDistinct (stCands s q)) :
    searchSingleIds s q n msim = searchMultiIds s q n msim T := by
  cases msim
  · exact search_parity_max s q n T hT hq he hd
  · exact search_parity_min s q n T hT hq he hd

/-- Witness for C7 on a two-slot store with norms 5 and 13, query norm 1 and
distinct scores 3/5 and 5/13, at n = 1 with two tasks. -/
theorem C7_search_thread_parity_witness :
    searchSingleIds ⟨2, 16, 16, [3, 4, 5, 12]⟩ [1, 0] 1 true
      = searchMultiIds ⟨2, 16, 16, [3, 4, 5, 12]⟩ [1, 0] 1 true 2 := by
  have hq1 : normQ [1, 0] (⟨2, 16, 16, [3, 4, 5, 12]⟩ : EStore).dims = 1 := by
    apply normQ_eval _ _ 1 (by norm_num)
    show normSqQ [1, 0] 2 = 1 * 1
    simp [normSqQ, List.range_succ]
  have he0 : candNorm ⟨2, 16, 16, [3, 4, 5, 12]⟩ 0 = 5 := by
    apply normQ_eval _ _ 5 (by norm_num)
    show normSqQ (slotAt ⟨2, 16, 16, [3, 4, 5, 12]⟩ 0) 2 = 5 * 5
    rw [show slotAt ⟨2, 16, 16, [3, 4, 5, 12]⟩ 0 = [3, 4] from rfl]
    simp [normSqQ, List.range_succ, List.getD]
    norm_num
  have he1 : candNorm ⟨2, 16, 16, [3, 4, 5, 12]⟩ 1 = 13 := by
    apply normQ_eval _ _ 13 (by norm_num)
    show normSqQ (slotAt ⟨2, 16, 16, [3, 4, 5, 12]⟩ 1) 2 = 13 * 13
    rw [show slotAt ⟨2, 16, 16, [3, 4, 5, 12]⟩ 1 = [5, 12] from rfl]
    simp [normSqQ, List.range_succ, List.getD]
    norm_num
  have hdot0 : candDot ⟨2, 16, 16, [3, 4, 5, 12]⟩ [1, 0] 0 = 3 := by
    show dotQ [1, 0] (slotAt ⟨2, 16, 16, [3, 4, 5, 12]⟩ 0) 2 = 3
    rw [show slotAt ⟨2, 16, 16, [3, 4, 5, 12]⟩ 0 = [3, 4] from rfl]
    simp [dotQ, List.range_succ, List.getD]
  have hdot1 : candDot ⟨2, 16, 16, [3, 4, 5, 12]⟩ [1, 0] 1 = 5 := by
    show dotQ [1, 0] (slotAt ⟨2, 16, 16, [3, 4, 5, 12]⟩ 1) 2 = 5
    rw [show slotAt ⟨2, 16, 16, [3, 4, 5, 12]⟩ 1 = [5, 12] from rfl]
    simp [dotQ, List.range_succ, List.getD]
  have hz0 : isZeroSlot ⟨2, 16, 16, [3, 4, 5, 12]⟩ 0 = false := by
    rw [Bool.eq_false_iff, Ne, isZeroSlot_iff]
    intro h
    have h2 : (3 : ℚ) = 0 := h 0 (by norm_num)
    norm_num at h2
  have hz1 : isZeroSlot ⟨2, 16, 16, [3, 4, 5, 12]⟩ 1 = false := by
    rw [Bool.eq_false_iff, Ne, isZeroSlot_iff]
    intro h
    have h2 : (5 : ℚ) = 0 := h 0 (by norm_num)
    norm_num at h2
  have hs0 : stScore ⟨2, 16, 16, [3, 4, 5, 12]⟩ [1, 0] 0 = 3/5 := by
    unfold stScore simST
    rw [hq1, he0, hdot0, if_pos ⟨by norm_num [fltEps], by norm_num [fltEps]⟩]
    norm_num
  have hs1 : stScore ⟨2, 16, 16, [3, 4, 5, 12]⟩ [1, 0] 1 = 5/13 := by
    unfold stScore simST
    rw [hq1, he1, hdot1, if_pos ⟨by norm_num [fltEps], by norm_num [fltEps]⟩]
    norm_num
  have hcands : stCands ⟨2, 16, 16, [3, 4, 5, 12]⟩ [1, 0]
      = [⟨0, 3/5⟩, ⟨1, 5/13⟩] := by
    unfold stCands
    rw [show List.range (countS ⟨2, 16, 16, [3, 4, 5, 12]⟩) = [0, 1] from rfl]
    simp only [List.filterMap_cons, List.filterMap_nil, hz0, hz1, Bool.false_eq_true,
      if_false, hs0, hs1]
  exact C7_search_thread_parity ⟨2, 16, 16, [3, 4, 5, 12]⟩ [1, 0] 1 true 2
    (by norm_num)
    (by rw [hq1]; norm_num [fltEps])
    (by
      intro i hi _
      have h2 : i = 0 ∨ i = 1 := by
        rw [show countS ⟨2, 16, 16, [3, 4, 5, 12]⟩ = 2 from rfl] at hi
        omega
      rcases h2 with rfl | rfl
      · rw [he0]
        norm_num [fltEps]
      · rw [he1]
        norm_num [fltEps])
    (by
      rw [hcands]
      unfold ScoresDistinct
      simp only [List.pairwise_cons, List.mem_singleton, List.mem_cons,
        List.not_mem_nil, or_false, List.Pairwise.nil]
      refine ⟨?_, ?_, trivial⟩
      · intro b hb
        rw [hb]
        norm_num
      · intro b hb
        simp at hb)

/-- C7 as stated fails: on the two-slot store holding [2^-24, 0] and [3, 4]
with query [1, 0] and n = 1, the single-threaded search returns id 1 (the
tiny slot scores 0 under its FLT_EPSILON guard) while the two-task search
returns id 0 (the worker's > 0 guard scores the tiny slot 1). -/
theorem C7_counterexample :
    searchSingleIds ⟨2, 16, 16, [1/16777216, 0, 3, 4]⟩ [1, 0] 1 true
      ≠ searchMultiIds ⟨2, 16, 16, [1/16777216, 0, 3, 4]⟩ [1, 0] 1 true 2 := by
  have hq1 : normQ [1, 0] (⟨2, 16, 16, [1/16777216, 0, 3, 4]⟩ : EStore).dims = 1 := by
    apply normQ_eval _ _ 1 (by norm_num)
    show normSqQ [1, 0] 2 = 1 * 1
    simp [normSqQ, List.range_succ]
  have hn0 : candNorm ⟨2, 16, 16, [1/16777216, 0, 3, 4]⟩ 0 = 1/16777216 := by
    apply normQ_eval _ _ (1/16777216) (by norm_num)
    show normSqQ (slotAt ⟨2, 16, 16, [1/16777216, 0, 3, 4]⟩ 0) 2
      = 1/16777216 * (1/16777216)
    rw [show slotAt ⟨2, 16, 16, [1/16777216, 0, 3, 4]⟩ 0 = [1/16777216, 0] from rfl]
    simp [normSqQ, List.range_succ, List.getD]
  have hn1 : candNorm ⟨2, 16, 16, [1/16777216, 0, 3, 4]⟩ 1 = 5 := by
    apply normQ_eval _ _ 5 (by norm_num)
    show normSqQ (slotAt ⟨2, 16, 16, [1/16777216, 0, 3, 4]⟩ 1) 2 = 5 * 5
    rw [show slotAt ⟨2, 16, 16, [1/16777216, 0, 3, 4]⟩ 1 = [3, 4] from rfl]
    simp [normSqQ, List.range_succ, List.getD]
    norm_num
  have hdot0 : candDot ⟨2, 16, 16, [1/16777216, 0, 3, 4]⟩ [1, 0] 0 = 1/16777216 := by
    show dotQ [1, 0] (slotAt ⟨2, 16, 16, [1/16777216, 0, 3, 4]⟩ 0) 2 = 1/16777216
    rw [show slotAt ⟨2, 16, 16, [1/16777216, 0, 3, 4]⟩ 0 = [1/16777216, 0] from rfl]
    simp [dotQ, List.range_succ, List.getD]
  have hdot1 : candDot ⟨2, 16, 16, [1/16777216, 0, 3, 4]⟩ [1, 0] 1 = 3 := by
    show dotQ [1, 0] (slotAt ⟨2, 16, 16, [1/16777216, 0, 3, 4]⟩ 1) 2 = 3
    rw [show slotAt ⟨2, 16, 16, [1/16777216, 0, 3, 4]⟩ 1 = [3, 4] from rfl]
    simp [dotQ, List.range_succ, List.getD]
  have hz0 : isZeroSlot ⟨2, 16, 16, [1/16777216, 0, 3, 4]⟩ 0 = false := by
    rw [Bool.eq_false_iff, Ne, isZeroSlot_iff]
    intro h
    have h2 : (1/16777216 : ℚ) = 0 := h 0 (by norm_num)
    norm_num at h2
  have hz1 : isZeroSlot ⟨2, 16, 16, [1/16777216, 0, 3, 4]⟩ 1 = false := by
    rw [Bool.eq_false_iff, Ne, isZeroSlot_iff]
    intro h
    have h2 : (3 : ℚ) = 0 := h 0 (by norm_num)
    norm_num at h2
  have hs0 : stScore ⟨2, 16, 16, [1/16777216, 0, 3, 4]⟩ [1, 0] 0 = 0 := by
    unfold stScore simST
    rw [hq1, hn0, if_neg (by
      intro h
      have := h.2
      norm_num [fltEps] at this)]
  have hs1 : stScore ⟨2, 16, 16, [1/16777216, 0, 3, 4]⟩ [1, 0] 1 = 3/5 := by
    unfold stScore simST
    rw [hq1, hn1, hdot1, if_pos ⟨by norm_num [fltEps], by norm_num [fltEps]⟩]
    norm_num
  have hm0 : mtScore ⟨2, 16, 16, [1/16777216, 0, 3, 4]⟩ [1, 0] 0 = 1 := by
    unfold mtScore simMT
    rw [hq1, hn0, hdot0, if_pos ⟨by norm_num, by norm_num⟩]
    norm_num
  have hm1 : mtScore ⟨2, 16, 16, [1/16777216, 0, 3, 4]⟩ [1, 0] 1 = 3/5 := by
    unfold mtScore simMT
    rw [hq1, hn1, hdot1, if_pos ⟨by norm_num, by norm_num⟩]
    norm_num
  have hS : searchSingleHeap ⟨2, 16, 16, [1/16777216, 0, 3, 4]⟩ [1, 0] 1 true
      = [⟨1, 3/5⟩] := by
    unfold searchSingleHeap
    rw [show List.range (countS ⟨2, 16, 16, [1/16777216, 0, 3, 4]⟩) = [0, 1] from rfl,
      List.foldl_cons, List.foldl_cons, List.foldl_nil]
    have hstep0 : stStep ⟨2, 16, 16, [1/16777216, 0, 3, 4]⟩ [1, 0] 1 true [] 0
        = [⟨0, 0⟩] := by
      unfold stStep
      rw [hz0, if_neg Bool.false_ne_true, if_pos (rfl : (true : Bool) = true)]
      rw [hs0, pushMin_insert 1 [] _ (by norm_num), List.nil_append, List.length_nil,
        siftUpMin_zero]
    rw [hstep0]
    unfold stStep
    rw [hz1, if_neg Bool.false_ne_true, if_pos (rfl : (true : Bool) = true)]
    rw [hs1, pushMin_evict 1 [⟨0, 0⟩] _ (by norm_num) (by
      show scoreAt [⟨0, 0⟩] 0 < (3/5 : ℚ)
      unfold scoreAt
      norm_num [List.getD])]
    rw [show ([⟨0, 0⟩] : List Result).set 0 ⟨1, 3/5⟩ = [⟨1, 3/5⟩] from rfl,
      siftDownMin_stop 1 _ 0 (by
        unfold minChildSel
        norm_num)]
  have hM : searchMultiHeap ⟨2, 16, 16, [1/16777216, 0, 3, 4]⟩ [1, 0] 1 true 2
      = [⟨0, 1⟩] := by
    unfold searchMultiHeap
    dsimp only
    rw [show List.range 2 = [0, 1] from rfl, List.map_cons, List.map_cons, List.map_nil]
    have hw0 : workerHeap ⟨2, 16, 16, [1/16777216, 0, 3, 4]⟩ [1, 0] 1 true
        (taskStart (countS ⟨2, 16, 16, [1/16777216, 0, 3, 4]⟩) 2 0)
        (taskEnd (countS ⟨2, 16, 16, [1/16777216, 0, 3, 4]⟩) 2 0) = [⟨0, 1⟩] := by
      rw [show taskStart (countS ⟨2, 16, 16, [1/16777216, 0, 3, 4]⟩) 2 0 = 0 from rfl,
        show taskEnd (countS ⟨2, 16, 16, [1/16777216, 0, 3, 4]⟩) 2 0 = 1 from rfl]
      unfold workerHeap
      rw [show List.range' 0 (1 - 0) = [0] from rfl, List.foldl_cons, List.foldl_nil]
      unfold mtStep
      rw [hz0, if_neg Bool.false_ne_true, if_pos (rfl : (true : Bool) = true)]
      rw [hm0, pushMin_insert 1 [] _ (by norm_num), List.nil_append, List.length_nil,
        siftUpMin_zero]
    have hw1 : workerHeap ⟨2, 16, 16, [1/16777216, 0, 3, 4]⟩ [1, 0] 1 true
        (taskStart (countS ⟨2, 16, 16, [1/16777216, 0, 3, 4]⟩) 2 1)
        (taskEnd (countS ⟨2, 16, 16, [1/16777216, 0, 3, 4]⟩) 2 1) = [⟨1, 3/5⟩] := by
      rw [show taskStart (countS ⟨2, 16, 16, [1/16777216, 0, 3, 4]⟩) 2 1 = 1 from rfl,
        show taskEnd (countS ⟨2, 16, 16, [1/16777216, 0, 3, 4]⟩) 2 1 = 2 from rfl]
      unfold workerHeap
      rw [show List.range' 1 (2 - 1) = [1] from rfl, List.foldl_cons, List.foldl_nil]
      unfold mtStep
      rw [hz1, if_neg Bool.false_ne_true, if_pos (rfl : (true : Bool) = true)]
      rw [hm1, pushMin_insert 1 [] _ (by norm_num), List.nil_append, List.length_nil,
        siftUpMin_zero]
    rw [hw0, hw1]
    have hfn : (fun (acc : List Result) (r : Result) =>
        if (true : Bool) then pushMin 1 acc r else pushMax 1 acc r) = pushMin 1 := by
      funext acc r
      rw [if_pos (rfl : (true : Bool) = true)]
    rw [hfn, show ([[⟨0, 1⟩], [⟨1, 3/5⟩]] : List (List Result)).flatten
        = [⟨0, 1⟩, ⟨1, 3/5⟩] from rfl,
      List.foldl_cons, List.foldl_cons, List.foldl_nil]
    rw [pushMin_insert 1 [] _ (by norm_num), List.nil_append, List.length_nil,
      siftUpMin_zero]
    rw [pushMin_keep 1 [⟨0, 1⟩] _ (by norm_num) (by
      show ¬ scoreAt [⟨0, 1⟩] 0 < (3/5 : ℚ)
      unfold scoreAt
      norm_num [List.getD])]
  intro hEq
  unfold searchSingleIds searchMultiIds at hEq
  rw [hS, hM] at hEq
  rw [show ([⟨1, 3/5⟩] : List Result).map Result.id = [1] from rfl,
    show ([⟨0, 1⟩] : List Result).map Result.id = [0] from rfl] at hEq
  have h1 : (1 : ℕ) ∈ ([1] : List ℕ).toFinset := by simp
  rw [hEq] at h1
  simp at h1

end Embedlet
